import Mathlib

/-!
Verification of the label-multiset construction, downsampling and merging
algorithms of `elf.label_multiset.create` against their specification.

The Python module `src/elf/label_multiset/create.py` is embedded shallowly:

* dense label arrays become `LabelArray` (a flat C-order data list plus a shape);
* a `LabelMultiset` stores the per-voxel `argmax` and `offsets` arrays together
  with the deduplicated entry table (`entries`, a list of histograms);
* `numpy` helpers (`np.unique`, `np.ravel_multi_index`, `np.mgrid`) and the
  `nifty.tools` blocking / downsampling / merging utilities, which are not part
  of the repository sources, are modelled from the specification (sections 3,
  4.1, 4.3 and 4.4 of the design document), as indicated on each definition.

Fallible operations return `Except String` mirroring the `ValueError`s raised
by the Python code.
-/

namespace ElfLM

/-- Product of a list of extents; `np.prod` over a shape (empty product is 1). -/
def prodl (s : List Nat) : Nat := s.foldr (· * ·) 1

@[simp] theorem prodl_nil : prodl [] = 1 := rfl

@[simp] theorem prodl_cons (a : Nat) (s : List Nat) : prodl (a :: s) = a * prodl s := rfl

/-- Ceiling division on naturals; embeds Python's `int(ceil(sh / sc))`
for non-negative `sh` and positive `sc`. -/
def ceilDiv (a b : Nat) : Nat := (a + b - 1) / b

theorem ceilDiv_eq_div_add_one {a b : Nat} (ha : 0 < a) (hb : 0 < b) :
    ceilDiv a b = (a - 1) / b + 1 := by
  unfold ceilDiv
  have h1 : a + b - 1 = (a - 1) + b := by omega
  rw [h1, Nat.add_div_right _ hb]

theorem ceilDiv_pos {a b : Nat} (ha : 0 < a) (hb : 0 < b) : 0 < ceilDiv a b := by
  rw [ceilDiv_eq_div_add_one ha hb]; exact Nat.succ_pos _

theorem pos_of_ceilDiv_pos {a b : Nat} (h : 0 < ceilDiv a b) : 0 < b := by
  by_contra hb
  have hb0 : b = 0 := by omega
  subst hb0
  simp [ceilDiv] at h

theorem div_lt_ceilDiv {a n c : Nat} (hc : 0 < c) (h : a < n) : a / c < ceilDiv n c := by
  have hn : 0 < n := by omega
  rw [ceilDiv_eq_div_add_one hn hc]
  have : a / c ≤ (n - 1) / c := Nat.div_le_div_right (by omega)
  omega

theorem mul_lt_of_lt_ceilDiv {p s c : Nat} (hc : 0 < c) (hs : 0 < s)
    (h : p < ceilDiv s c) : p * c < s := by
  rw [ceilDiv_eq_div_add_one hs hc] at h
  have hp : p ≤ (s - 1) / c := by omega
  have : p * c ≤ ((s - 1) / c) * c := Nat.mul_le_mul_right _ hp
  have h2 : ((s - 1) / c) * c ≤ s - 1 := Nat.div_mul_le_self _ _
  omega

/-- C-order flat index of a coordinate inside a shape (last axis varies
fastest); embeds `np.ravel_multi_index(coords, shape)`. -/
def ravel : List Nat → List Nat → Nat
  | _ :: sh, c :: cs => c * prodl sh + ravel sh cs
  | _, _ => 0

/-- Inverse of `ravel`: the C-order coordinate of a flat index. -/
def unravel : List Nat → Nat → List Nat
  | [], _ => []
  | _ :: sh, i => (i / prodl sh) :: unravel sh (i % prodl sh)

@[simp] theorem unravel_nil (i : Nat) : unravel [] i = [] := rfl

@[simp] theorem ravel_nil (c : List Nat) : ravel [] c = 0 := by cases c <;> rfl

theorem unravel_length (s : List Nat) (i : Nat) : (unravel s i).length = s.length := by
  induction s generalizing i with
  | nil => rfl
  | cons a s ih => simp [unravel, ih]

/-- `c` is a valid coordinate for shape `s`: same rank, each component within
its extent. -/
def InBox (s c : List Nat) : Prop := List.Forall₂ (fun d x => x < d) s c

theorem unravel_inBox {s : List Nat} {i : Nat} (h : i < prodl s) : InBox s (unravel s i) := by
  induction s generalizing i with
  | nil => exact List.Forall₂.nil
  | cons a s ih =>
    simp only [prodl_cons] at h
    have hP : 0 < prodl s := by
      rcases Nat.eq_zero_or_pos (prodl s) with h0 | h0
      · rw [h0, Nat.mul_zero] at h; omega
      · exact h0
    refine List.Forall₂.cons ?_ (ih (Nat.mod_lt _ hP))
    exact Nat.div_lt_of_lt_mul (Nat.mul_comm a (prodl s) ▸ h)

theorem ravel_lt {s c : List Nat} (h : InBox s c) : ravel s c < prodl s := by
  induction h with
  | nil => simp [ravel]
  | @cons d x s' c' hx _ ih =>
    simp only [ravel, prodl_cons]
    calc x * prodl s' + ravel s' c' < x * prodl s' + prodl s' := by omega
      _ = (x + 1) * prodl s' := by ring
      _ ≤ d * prodl s' := Nat.mul_le_mul_right _ (by omega)

theorem ravel_unravel {s : List Nat} {i : Nat} (h : i < prodl s) :
    ravel s (unravel s i) = i := by
  induction s generalizing i with
  | nil =>
    simp only [prodl_nil] at h
    simp [ravel_nil]
    omega
  | cons a s ih =>
    simp only [prodl_cons] at h
    have hP : 0 < prodl s := by
      rcases Nat.eq_zero_or_pos (prodl s) with h0 | h0
      · rw [h0, Nat.mul_zero] at h; omega
      · exact h0
    simp only [unravel, ravel]
    rw [ih (Nat.mod_lt _ hP)]
    exact Nat.div_add_mod' i (prodl s)

theorem unravel_ravel {s c : List Nat} (h : InBox s c) : unravel s (ravel s c) = c := by
  induction h with
  | nil => rfl
  | @cons d x s' c' hx h' ih =>
    have hr : ravel s' c' < prodl s' := ravel_lt h'
    have hP : 0 < prodl s' := by omega
    simp only [ravel, unravel]
    have hdiv : (x * prodl s' + ravel s' c') / prodl s' = x := by
      rw [Nat.mul_comm x, Nat.mul_add_div hP, Nat.div_eq_of_lt hr, Nat.add_zero]
    have hmod : (x * prodl s' + ravel s' c') % prodl s' = ravel s' c' := by
      rw [Nat.mul_comm x, Nat.mul_add_mod, Nat.mod_eq_of_lt hr]
    rw [hdiv, hmod, ih]

theorem ravel_inj {s c₁ c₂ : List Nat} (h₁ : InBox s c₁) (h₂ : InBox s c₂)
    (h : ravel s c₁ = ravel s c₂) : c₁ = c₂ := by
  have := unravel_ravel h₁
  rw [h, unravel_ravel h₂] at this
  exact this.symm

@[simp] theorem unravel_zero (s : List Nat) : unravel s 0 = List.replicate s.length 0 := by
  induction s with
  | nil => rfl
  | cons a s ih => simp [unravel, ih, List.replicate]

theorem ravel_replicate_zero (s : List Nat) (n : Nat) :
    ravel s (List.replicate n 0) = 0 := by
  induction s generalizing n with
  | nil => rfl
  | cons a s ih =>
    cases n with
    | zero => rfl
    | succ n => simp [List.replicate, ravel, ih]

/-! ### Box enumeration (`np.mgrid` over a bounding box, C-order) -/

/-- Per-axis bounds of a rectangular box: `(begin, end)` pairs. -/
abbrev Bounds := List (Nat × Nat)

/-- All coordinates of a box, enumerated in C-order (last axis fastest);
embeds `np.mgrid[bb]` flattened as done in `merge_multisets.get_indices`. -/
def boxCoords : Bounds → List (List Nat)
  | [] => [[]]
  | bd :: rest =>
    (((List.range (bd.2 - bd.1)).map (bd.1 + ·)).map
      (fun x => (boxCoords rest).map (fun c => x :: c))).flatten

theorem boxCoords_length (bs : Bounds) :
    (boxCoords bs).length = prodl (bs.map (fun bd => bd.2 - bd.1)) := by
  induction bs with
  | nil => rfl
  | cons bd rest ih =>
    simp only [boxCoords, List.length_flatten, List.map_map]
    have h1 : List.map
        (List.length ∘ (fun x => (boxCoords rest).map (fun c => x :: c)) ∘ fun x => bd.1 + x)
        (List.range (bd.2 - bd.1))
        = List.map (fun _ => (boxCoords rest).length) (List.range (bd.2 - bd.1)) :=
      List.map_congr_left (fun a _ => by simp)
    rw [h1, List.map_const', List.sum_replicate, smul_eq_mul]
    simp [ih, prodl_cons]

/-- Membership in a box enumeration: exactly the coordinates within bounds. -/
theorem mem_boxCoords {bs : Bounds} {c : List Nat} :
    c ∈ boxCoords bs ↔ List.Forall₂ (fun bd x => bd.1 ≤ x ∧ x < bd.2) bs c := by
  induction bs generalizing c with
  | nil =>
    simp only [boxCoords, List.mem_singleton]
    constructor
    · rintro rfl; exact List.Forall₂.nil
    · intro h; cases h; rfl
  | cons bd rest ih =>
    simp only [boxCoords, List.mem_flatten, List.mem_map]
    constructor
    · rintro ⟨l, ⟨x, ⟨y, hy, rfl⟩, rfl⟩, hc⟩
      rcases List.mem_map.mp hc with ⟨c', hc', rfl⟩
      have hylt : y < bd.2 - bd.1 := List.mem_range.mp hy
      exact List.Forall₂.cons ⟨Nat.le_add_right _ _, by omega⟩ (ih.mp hc')
    · intro h
      cases h with
      | cons hx hrest =>
        rename_i x c'
        refine ⟨(boxCoords rest).map (fun c => x :: c), ⟨x, ⟨x - bd.1, ?_, ?_⟩, rfl⟩, ?_⟩
        · exact List.mem_range.mpr (by omega)
        · omega
        · exact List.mem_map.mpr ⟨c', ih.mpr hrest, rfl⟩

theorem forall₂_bounds_upper {bs : Bounds} {c : List Nat}
    (h : List.Forall₂ (fun bd x => bd.1 ≤ x ∧ x < bd.2) bs c) :
    InBox (bs.map (fun bd => bd.2)) c := by
  induction h with
  | nil => exact List.Forall₂.nil
  | cons hx _ ih => exact List.Forall₂.cons hx.2 ih

theorem inBox_of_mem_boxCoords {bs : Bounds} {c : List Nat}
    (h : c ∈ boxCoords bs) : InBox (bs.map (fun bd => bd.2)) c :=
  forall₂_bounds_upper (mem_boxCoords.mp h)

/-! ### Blocking utility

Modelled from the spec (section 4.1): `nifty.tools.blocking` partitions an
N-dimensional index space `[0, shape)` into rectangular blocks of nominal
shape `block`, numbered in C-order, clipped at the outer boundary. -/

/-- Number of blocks along each axis (`blocking.blocksPerAxis`). -/
def blocksPerAxis (shape block : List Nat) : List Nat := List.zipWith ceilDiv shape block

/-- Total number of blocks (`blocking.numberOfBlocks`). -/
def numberOfBlocks (shape block : List Nat) : Nat := prodl (blocksPerAxis shape block)

/-- Per-axis `(begin, end)` bounds of block `bid` (`blocking.getBlock(bid)`),
clipped at the outer boundary. -/
def blockBounds (shape block : List Nat) (bid : Nat) : Bounds :=
  (List.zip (unravel (blocksPerAxis shape block) bid) (List.zip shape block)).map
    (fun p => (p.1 * p.2.2, min ((p.1 + 1) * p.2.2) p.2.1))

/-- Shape of block `bid` (`blocking.getBlock(bid).shape`). -/
def blockShape (shape block : List Nat) (bid : Nat) : List Nat :=
  (blockBounds shape block bid).map (fun bd => bd.2 - bd.1)

/-! ### Sorted unique values (`np.unique`) -/

/-- Insert a value into a strictly sorted list, keeping it sorted and
duplicate-free. -/
def insSorted (x : Nat) : List Nat → List Nat
  | [] => [x]
  | y :: ys => if x < y then x :: y :: ys else if x = y then y :: ys else y :: insSorted x ys

/-- The sorted list of distinct values of `l`; embeds `np.unique(l)`. -/
def uniqueSorted (l : List Nat) : List Nat := l.foldr insSorted []

theorem mem_insSorted {x z : Nat} {l : List Nat} :
    z ∈ insSorted x l ↔ z = x ∨ z ∈ l := by
  induction l with
  | nil => simp [insSorted]
  | cons y ys ih =>
    by_cases h1 : x < y
    · simp [insSorted, h1]
    · by_cases h2 : x = y
      · subst h2
        simp [insSorted, h1]
      · simp only [insSorted, if_neg h1, if_neg h2, List.mem_cons, ih]
        tauto

theorem sorted_insSorted {x : Nat} {l : List Nat} (h : l.Sorted (· < ·)) :
    (insSorted x l).Sorted (· < ·) := by
  induction l with
  | nil => simp [insSorted]
  | cons y ys ih =>
    have hy : ∀ z ∈ ys, y < z := List.rel_of_sorted_cons h
    have hys : ys.Sorted (· < ·) := h.tail
    by_cases h1 : x < y
    · simp only [insSorted, if_pos h1]
      refine List.sorted_cons.mpr ⟨fun z hz => ?_, h⟩
      rcases List.mem_cons.mp hz with rfl | hz'
      · exact h1
      · exact lt_trans h1 (hy z hz')
    · by_cases h2 : x = y
      · simpa [insSorted, h1, h2] using h
      · have hyx : y < x := by omega
        simp only [insSorted, if_neg h1, if_neg h2]
        refine List.sorted_cons.mpr ⟨fun z hz => ?_, ih hys⟩
        rcases mem_insSorted.mp hz with rfl | hz'
        · exact hyx
        · exact hy z hz'

theorem mem_uniqueSorted {l : List Nat} {z : Nat} : z ∈ uniqueSorted l ↔ z ∈ l := by
  induction l with
  | nil => simp [uniqueSorted]
  | cons y ys ih =>
    simp only [uniqueSorted, List.foldr_cons]
    rw [mem_insSorted]
    simp only [List.mem_cons]
    exact or_congr Iff.rfl ih

theorem sorted_uniqueSorted (l : List Nat) : (uniqueSorted l).Sorted (· < ·) := by
  induction l with
  | nil => simp [uniqueSorted]
  | cons y ys ih => exact sorted_insSorted ih

theorem nodup_uniqueSorted (l : List Nat) : (uniqueSorted l).Nodup :=
  (sorted_uniqueSorted l).imp (fun h => Nat.ne_of_lt h)

/-- Index of the first occurrence of `x` in `l` (0 when absent);
`list.index(x)` / the inverse mapping of `np.unique`. -/
def idxOf : Nat → List Nat → Nat
  | _, [] => 0
  | x, y :: ys => if y = x then 0 else idxOf x ys + 1

theorem idxOf_lt_length {x : Nat} {l : List Nat} (h : x ∈ l) : idxOf x l < l.length := by
  induction l with
  | nil => simp at h
  | cons y ys ih =>
    by_cases hxy : y = x
    · simp [idxOf, hxy]
    · have hx : x ∈ ys := by
        rcases List.mem_cons.mp h with rfl | h'
        · exact absurd rfl hxy
        · exact h'
      simp only [idxOf, if_neg hxy, List.length_cons]
      exact Nat.succ_lt_succ (ih hx)

theorem getElem_idxOf {x : Nat} {l : List Nat} (h : x ∈ l) :
    l.getD (idxOf x l) 0 = x := by
  induction l with
  | nil => simp at h
  | cons y ys ih =>
    by_cases hxy : y = x
    · simp [idxOf, hxy]
    · have hx : x ∈ ys := by
        rcases List.mem_cons.mp h with rfl | h'
        · exact absurd rfl hxy
        · exact h'
      simp only [idxOf, if_neg hxy, List.getD_cons_succ]
      exact ih hx

/-! ### Histograms -/

/-- A histogram: a list of `(label id, count)` pairs. A canonical histogram
(as produced by `histOfPairs`) has strictly ascending ids. -/
abbrev Hist := List (Nat × Nat)

/-- Total count of `i` over a list of `(id, count)` pairs. -/
def countOf (ps : Hist) (i : Nat) : Nat :=
  ps.foldr (fun p a => if p.1 = i then p.2 + a else a) 0

@[simp] theorem countOf_nil (i : Nat) : countOf [] i = 0 := rfl

theorem countOf_cons (p : Nat × Nat) (ps : Hist) (i : Nat) :
    countOf (p :: ps) i = (if p.1 = i then p.2 else 0) + countOf ps i := by
  simp only [countOf, List.foldr_cons]
  split <;> omega

theorem countOf_append (ps qs : Hist) (i : Nat) :
    countOf (ps ++ qs) i = countOf ps i + countOf qs i := by
  induction ps with
  | nil => simp
  | cons p ps ih => rw [List.cons_append, countOf_cons, countOf_cons, ih]; omega

theorem countOf_eq_zero {ps : Hist} {i : Nat} (h : ∀ p ∈ ps, p.1 ≠ i) :
    countOf ps i = 0 := by
  induction ps with
  | nil => rfl
  | cons p ps ih =>
    rw [countOf_cons, ih (fun q hq => h q (List.mem_cons_of_mem _ hq))]
    simp [h p (List.mem_cons_self _ _)]

/-- Total mass of a histogram (sum of all counts). -/
def histTotal (h : Hist) : Nat := h.foldr (fun p a => p.2 + a) 0

@[simp] theorem histTotal_nil : histTotal [] = 0 := rfl

theorem histTotal_cons (p : Nat × Nat) (ps : Hist) :
    histTotal (p :: ps) = p.2 + histTotal ps := rfl

theorem histTotal_append (ps qs : Hist) :
    histTotal (ps ++ qs) = histTotal ps + histTotal qs := by
  induction ps with
  | nil => simp
  | cons p ps ih => rw [List.cons_append, histTotal_cons, histTotal_cons, ih]; omega

/-- The canonical combined histogram of a bag of `(id, count)` contributions:
ids sorted ascending, counts summed per id. Embeds the per-block histogram
merge of the downsampler (spec section 4.3). -/
def histOfPairs (ps : Hist) : Hist :=
  (uniqueSorted (ps.map Prod.fst)).map (fun i => (i, countOf ps i))

theorem sum_ite_single {u : List Nat} {k : Nat} (hu : u.Nodup) (hk : k ∈ u) (v : Nat) :
    (u.map (fun j => if k = j then v else 0)).sum = v := by
  induction u with
  | nil => simp at hk
  | cons y ys ih =>
    rcases List.mem_cons.mp hk with rfl | hk'
    · have hnot : k ∉ ys := (List.nodup_cons.mp hu).1
      have hz : (ys.map (fun j => if k = j then v else 0)).sum = 0 :=
        List.sum_eq_zero (by
          intro x hx
          rcases List.mem_map.mp hx with ⟨j, hj, rfl⟩
          have hkj : k ≠ j := fun h => hnot (h ▸ hj)
          simp [hkj])
      simp [hz]
    · have hyk : k ≠ y := fun h => (List.nodup_cons.mp hu).1 (h ▸ hk')
      simp only [List.map_cons, List.sum_cons]
      rw [if_neg hyk, ih (List.nodup_cons.mp hu).2 hk', Nat.zero_add]

theorem countOf_sum_over_keys {u : List Nat} (hu : u.Nodup) :
    ∀ ps : Hist, (∀ p ∈ ps, p.1 ∈ u) → (u.map (fun j => countOf ps j)).sum = histTotal ps := by
  intro ps
  induction ps with
  | nil =>
    intro _
    have h0 : (u.map fun j => countOf ([] : Hist) j).sum = 0 :=
      List.sum_eq_zero (by
        intro x hx
        rcases List.mem_map.mp hx with ⟨j, _, rfl⟩
        rfl)
    rw [h0]
    rfl
  | cons p ps ih =>
    intro hkeys
    have hp : p.1 ∈ u := hkeys p (List.mem_cons_self _ _)
    have hps : ∀ q ∈ ps, q.1 ∈ u := fun q hq => hkeys q (List.mem_cons_of_mem _ hq)
    have hsplit : (u.map fun j => countOf (p :: ps) j) =
        u.map (fun j => (if p.1 = j then p.2 else 0) + countOf ps j) :=
      List.map_congr_left (fun a _ => countOf_cons p ps a)
    rw [hsplit, List.sum_map_add, sum_ite_single hu hp p.2, ih hps, histTotal_cons]

theorem histTotal_map_pairs (u : List Nat) (f : Nat → Nat) :
    histTotal (u.map (fun j => (j, f j))) = (u.map f).sum := by
  induction u with
  | nil => rfl
  | cons y ys ih => simp [histTotal_cons, ih]

/-- The canonical combined histogram preserves total mass. -/
theorem histTotal_histOfPairs (ps : Hist) : histTotal (histOfPairs ps) = histTotal ps := by
  unfold histOfPairs
  rw [histTotal_map_pairs]
  exact countOf_sum_over_keys (nodup_uniqueSorted _) ps
    (fun p hp => mem_uniqueSorted.mpr (List.mem_map.mpr ⟨p, hp, rfl⟩))

theorem countOf_map_pairs {u : List Nat} (hu : u.Nodup) (f : Nat → Nat) (i : Nat) :
    countOf (u.map (fun j => (j, f j))) i = if i ∈ u then f i else 0 := by
  induction u with
  | nil => simp
  | cons y ys ih =>
    have hys := (List.nodup_cons.mp hu).2
    simp only [List.map_cons, countOf_cons]
    by_cases hyi : y = i
    · subst hyi
      have : y ∉ ys := (List.nodup_cons.mp hu).1
      rw [ih hys]
      simp [this]
    · rw [ih hys]
      have hiy : i = y → False := fun h => hyi h.symm
      by_cases hi : i ∈ ys
      · simp [hyi, hi, List.mem_cons]
      · simp [hyi, hi, List.mem_cons]
        exact (if_neg hiy).symm

/-- The canonical combined histogram preserves the count of every id. -/
theorem countOf_histOfPairs (ps : Hist) (i : Nat) :
    countOf (histOfPairs ps) i = countOf ps i := by
  unfold histOfPairs
  rw [countOf_map_pairs (nodup_uniqueSorted _)]
  by_cases hi : i ∈ uniqueSorted (ps.map Prod.fst)
  · simp [hi]
  · rw [if_neg hi, countOf_eq_zero]
    intro p hp hpi
    exact hi (mem_uniqueSorted.mpr (List.mem_map.mpr ⟨p, hp, hpi⟩))

/-- Representative id of a histogram: the id with the maximal count; ties are
broken towards the id appearing first (the smallest one for a canonical
histogram). Modelled from the spec (section 4.3). -/
def histArgmax (h : Hist) : Nat :=
  (h.foldl (fun best p => if best.2 < p.2 then p else best) (0, 0)).1

/-- Insertion by descending count, ascending id among equal counts. -/
def insByCount (p : Nat × Nat) : Hist → Hist
  | [] => [p]
  | q :: qs =>
    if q.2 < p.2 ∨ (q.2 = p.2 ∧ p.1 < q.1) then p :: q :: qs else q :: insByCount p qs

/-- Insertion by ascending id. -/
def insById (p : Nat × Nat) : Hist → Hist
  | [] => [p]
  | q :: qs => if p.1 < q.1 then p :: q :: qs else q :: insById p qs

/-- Truncation of a histogram to its `k` highest-count ids (ties towards the
smaller id), re-sorted by id; the `restrict_set` cap of the downsampler.
Modelled from the spec (section 4.3); a negative cap means "unlimited". -/
def histRestrict (k : Int) (h : Hist) : Hist :=
  if k < 0 then h else ((h.foldr insByCount []).take k.toNat).foldr insById []

@[simp] theorem histRestrict_neg_one (h : Hist) : histRestrict (-1) h = h := rfl

/-! ### The deduplicated entry table -/

/-- First index of hist `h` in table `tbl`, if present (signature-based
lookup of the global deduplication step; spec sections 4.3 and 4.4). -/
def findIdx? (tbl : List Hist) (h : Hist) : Option Nat :=
  match tbl with
  | [] => none
  | t :: ts => if t = h then some 0 else (findIdx? ts h).map (· + 1)

theorem findIdx?_some {tbl : List Hist} {h : Hist} {i : Nat}
    (hf : findIdx? tbl h = some i) : i < tbl.length ∧ tbl.getD i [] = h := by
  induction tbl generalizing i with
  | nil => simp [findIdx?] at hf
  | cons t ts ih =>
    by_cases ht : t = h
    · simp only [findIdx?, if_pos ht] at hf
      cases hf
      simp [ht]
    · simp only [findIdx?, if_neg ht, Option.map_eq_some'] at hf
      rcases hf with ⟨j, hj, rfl⟩
      rcases ih hj with ⟨hlt, hget⟩
      exact ⟨Nat.succ_lt_succ hlt, by simpa using hget⟩

/-- Fold a list of histograms into a running entry table with signature-based
deduplication, returning the extended table and, for each input histogram in
order, its assigned index. Embeds the table updates of `nt.downsampleMultiset`
and `nt.MultisetMerger` (modelled from the spec, sections 4.3 and 4.4). -/
def tableFold : List Hist → List Hist → List Hist × List Nat
  | tbl, [] => (tbl, [])
  | tbl, h :: hs =>
    let step : List Hist × Nat :=
      match findIdx? tbl h with
      | some i => (tbl, i)
      | none => (tbl ++ [h], tbl.length)
    let rest := tableFold step.1 hs
    (rest.1, step.2 :: rest.2)

/-- The global dedup table built from scratch (`buildTable hists` is the entry
table and per-voxel offsets of a freshly downsampled multiset). -/
def buildTable (hs : List Hist) : List Hist × List Nat := tableFold [] hs

theorem tableFold_extends (tbl es : List Hist) :
    ∃ ext, (tableFold tbl es).1 = tbl ++ ext := by
  induction es generalizing tbl with
  | nil => exact ⟨[], by simp [tableFold]⟩
  | cons h hs ih =>
    by_cases hf : (findIdx? tbl h).isSome
    · rcases Option.isSome_iff_exists.mp hf with ⟨i, hi⟩
      rcases ih tbl with ⟨ext, hext⟩
      exact ⟨ext, by simp [tableFold, hi, hext]⟩
    · have hnone : findIdx? tbl h = none := Option.not_isSome_iff_eq_none.mp hf
      rcases ih (tbl ++ [h]) with ⟨ext, hext⟩
      exact ⟨[h] ++ ext, by simp [tableFold, hnone, hext]⟩

theorem tableFold_length_le (tbl es : List Hist) :
    tbl.length ≤ (tableFold tbl es).1.length := by
  rcases tableFold_extends tbl es with ⟨ext, hext⟩
  simp [hext]

theorem tableFold_snd_length (tbl es : List Hist) :
    (tableFold tbl es).2.length = es.length := by
  induction es generalizing tbl with
  | nil => rfl
  | cons h hs ih =>
    cases hf : findIdx? tbl h <;> simp [tableFold, hf, ih]

theorem tableFold_idx_lt (tbl es : List Hist) :
    ∀ i ∈ (tableFold tbl es).2, i < (tableFold tbl es).1.length := by
  induction es generalizing tbl with
  | nil => simp [tableFold]
  | cons h hs ih =>
    intro i hi
    cases hf : findIdx? tbl h with
    | some j =>
      simp only [tableFold, hf] at hi ⊢
      rcases List.mem_cons.mp hi with rfl | hi'
      · exact Nat.lt_of_lt_of_le (findIdx?_some hf).1 (tableFold_length_le tbl hs)
      · exact ih tbl i hi'
    | none =>
      simp only [tableFold, hf] at hi ⊢
      rcases List.mem_cons.mp hi with rfl | hi'
      · exact Nat.lt_of_lt_of_le (by simp) (tableFold_length_le (tbl ++ [h]) hs)
      · exact ih (tbl ++ [h]) i hi'

/-- The table entry at each assigned index is exactly the folded histogram:
deduplication reuses an index only for an identical signature. -/
theorem tableFold_getD (tbl es : List Hist) :
    ∀ b < es.length,
      (tableFold tbl es).1.getD ((tableFold tbl es).2.getD b 0) [] = es.getD b [] := by
  induction es generalizing tbl with
  | nil => intro b hb; simp at hb
  | cons h hs ih =>
    intro b hb
    cases hf : findIdx? tbl h with
    | some j =>
      rcases findIdx?_some hf with ⟨hjlt, hjget⟩
      cases b with
      | zero =>
        simp only [tableFold, hf, List.getD_cons_zero]
        rcases tableFold_extends tbl hs with ⟨ext, hext⟩
        rw [hext, List.getD_append _ _ _ _ hjlt, hjget]
      | succ b =>
        simp only [tableFold, hf, List.getD_cons_succ]
        exact ih tbl b (by simpa using hb)
    | none =>
      cases b with
      | zero =>
        simp only [tableFold, hf, List.getD_cons_zero]
        rcases tableFold_extends (tbl ++ [h]) hs with ⟨ext, hext⟩
        rw [hext, List.getD_append _ _ _ _ (by simp)]
        simp
      | succ b =>
        simp only [tableFold, hf, List.getD_cons_succ]
        exact ih (tbl ++ [h]) b (by simpa using hb)

/-! ### The label multiset data model

Modelled from the spec (section 3): the class `LabelMultiset` of
`elf.label_multiset.label_multiset` is not among the sources; its attributes
are the per-voxel `argmax` and `offsets` arrays, the entry table (here kept
as a list of histograms, whose flattening yields the parallel `ids` /
`counts` / `entry_sizes` structures of the spec) and the `shape`. -/

structure LabelMultiset where
  argmax : List Nat
  offsets : List Nat
  entries : List Hist
  shape : List Nat
deriving DecidableEq, Inhabited, Repr

/-- Flattened id table: concatenation of the ids of all entries. -/
def LabelMultiset.ids (m : LabelMultiset) : List Nat :=
  (m.entries.map (fun e => e.map Prod.fst)).flatten

/-- Flattened count table: concatenation of the counts of all entries. -/
def LabelMultiset.counts (m : LabelMultiset) : List Nat :=
  (m.entries.map (fun e => e.map Prod.snd)).flatten

/-- Number of ids in each entry (`entry_sizes`). -/
def LabelMultiset.entry_sizes (m : LabelMultiset) : List Nat :=
  m.entries.map List.length

/-- The histogram referenced by voxel `v`. -/
def entryOfVoxel (m : LabelMultiset) (v : Nat) : Hist :=
  m.entries.getD (m.offsets.getD v 0) []

/-- Data-model invariants (spec section 3): per-voxel arrays have one element
per voxel of `shape`, and every offset indexes a valid entry. -/
def ValidMultiset (m : LabelMultiset) : Prop :=
  m.argmax.length = prodl m.shape ∧ m.offsets.length = prodl m.shape ∧
    ∀ o ∈ m.offsets, o < m.entries.length

instance (m : LabelMultiset) : Decidable (ValidMultiset m) := by
  unfold ValidMultiset
  infer_instance

/-- A dense label array: a shape together with its C-order flattened data. -/
structure LabelArray where
  shape : List Nat
  data : List Nat
  hlen : data.length = prodl shape

/-- `create_multiset_from_labels` (src/elf/label_multiset/create.py, lines
7-23): `argmax` is the flattened label array, `np.unique` provides the sorted
distinct ids and the per-voxel inverse mapping used as offsets, counts are
all one; every entry is the singleton histogram of one distinct id. -/
def create_multiset_from_labels (labels : LabelArray) : LabelMultiset :=
  let ids := uniqueSorted labels.data
  { argmax := labels.data
    offsets := labels.data.map (fun v => idxOf v ids)
    entries := ids.map (fun i => [(i, 1)])
    shape := labels.shape }

/-! ### Downsampling

`downsample_multiset` (src/elf/label_multiset/create.py, lines 26-44): the
type check and the output shape are direct translations of the source; the
blocking and the core `nt.downsampleMultiset` histogram aggregation are
modelled from the spec (sections 4.1 and 4.3). A non-`LabelMultiset` input
is represented by `none`. -/

/-- The `(id, count)` contributions of all input voxels of block `b`. -/
def blockPairs (m : LabelMultiset) (sf : List Nat) (b : Nat) : Hist :=
  ((boxCoords (blockBounds m.shape sf b)).map
    (fun c => entryOfVoxel m (ravel m.shape c))).flatten

def downsample_multiset : Option LabelMultiset → List Int → Int →
    Except String LabelMultiset
  | none, _, _ => Except.error "Expect input derived from MultisetBase"
  | some m, scale_factor, restrict_set =>
    if scale_factor.any (fun s => decide (s ≤ 0)) then
      Except.error "Invalid scale factor"
    else
      let sf : List Nat := scale_factor.map Int.toNat
      let nB := numberOfBlocks m.shape sf
      let hists := (List.range nB).map
        (fun b => histRestrict restrict_set (histOfPairs (blockPairs m sf b)))
      let tbl := buildTable hists
      Except.ok
        { argmax := hists.map histArgmax
          offsets := tbl.2
          entries := tbl.1
          shape := List.zipWith (fun sh sc => ceilDiv sh sc) m.shape sf }

/-! ### Merging

`merge_multisets` and `_compute_multiset_vector`
(src/elf/label_multiset/create.py, lines 47-130). The grid validation and the
scatter of per-chunk arrays into the global arrays are direct translations;
`nt.blocking` and the entry-table folding of `nt.MultisetMerger` are modelled
from the spec (sections 4.1 and 4.4). -/

/-- The runtime type guard at the top of `merge_multisets`, as written in the
source: it raises only when `multisets` is NOT a tuple/list AND some element
is not a `LabelMultiset` (the two conditions are combined with `and`).
`isTupleOrList` abstracts `isinstance(multisets, (tuple, list))` and
`elemIsMultiset` the per-element `isinstance(ms, LabelMultiset)` checks. -/
def mergeTypeGuardRaises (isTupleOrList : Bool) (elemIsMultiset : List Bool) : Bool :=
  (!isTupleOrList) && (!(elemIsMultiset.all (fun b => b)))

/-- Coordinate validity check of `np.ravel_multi_index`: as many coordinates
as axes, each within its extent. -/
def inBoundsB (c s : List Nat) : Bool :=
  (c.length == s.length) && ((c.zip s).all (fun p => p.1 < p.2))

theorem mem_zip_swap {l₁ l₂ : List Nat} {a b : Nat} (h : (a, b) ∈ l₁.zip l₂) :
    (b, a) ∈ l₂.zip l₁ := by
  rw [List.mem_iff_getElem] at h ⊢
  rcases h with ⟨n, hn, hget⟩
  have hn' : n < (l₂.zip l₁).length := by
    rw [List.length_zip] at hn ⊢
    omega
  refine ⟨n, hn', ?_⟩
  rw [List.getElem_zip] at hget
  rw [List.getElem_zip]
  cases hget
  rfl

theorem inBoundsB_iff {c s : List Nat} : inBoundsB c s = true ↔ InBox s c := by
  unfold inBoundsB InBox
  rw [Bool.and_eq_true, beq_iff_eq, List.all_eq_true, List.forall₂_iff_zip]
  constructor
  · rintro ⟨hlen, hall⟩
    refine ⟨hlen.symm, ?_⟩
    intro d x hdx
    have h2 := hall (x, d) (mem_zip_swap hdx)
    simpa using h2
  · rintro ⟨hlen, hall⟩
    refine ⟨hlen.symm, ?_⟩
    intro p hp
    have hsw : (p.2, p.1) ∈ s.zip c := mem_zip_swap hp
    have := hall hsw
    simpa using this

/-- `_compute_multiset_vector` (lines 99-130): validates the grid and returns
the vector of multisets. The source assigns `multiset_vector[pos] =
multisets[pos]` for every raveled position `pos`, so when every slot is
filled the resulting vector is the input list itself. -/
def _compute_multiset_vector (multisets : List LabelMultiset)
    (grid_positions : List (List Nat)) (shape chunks : List Nat) :
    Except String (List LabelMultiset) :=
  if prodl (blocksPerAxis shape chunks) ≠ multisets.length then
    Except.error "Invalid grid"
  else if grid_positions.any (fun gp => !(inBoundsB gp (blocksPerAxis shape chunks))) then
    Except.error "Invalid grid coordinates"
  else if (grid_positions.map (ravel (blocksPerAxis shape chunks))).any
      (fun p => multisets.length ≤ p) then
    Except.error "Invalid grid positions"
  else if (grid_positions.map (ravel (blocksPerAxis shape chunks))).any
      (fun p => (multisets.getD p default).shape ≠ blockShape shape chunks p) then
    Except.error "Invalid multiset shape"
  else if (List.range multisets.length).any
      (fun i => !((grid_positions.map (ravel (blocksPerAxis shape chunks))).contains i)) then
    Except.error "Not all grid-positions filled"
  else Except.ok multisets

/-- Scatter writes: `a[i] = v` for each pair `(i, v)` in order; embeds the
fancy-indexing assignments `argmax[new_indices] = ms.argmax` etc. -/
def writeAll (a : List Nat) (ps : List (Nat × Nat)) : List Nat :=
  ps.foldl (fun acc p => acc.set p.1 p.2) a

/-- Global flat indices covered by block `bid` (`get_indices` in the source:
`np.mgrid` over the block bounds, then `np.ravel_multi_index`). -/
def blockIndices (shape chunks : List Nat) (bid : Nat) : List Nat :=
  (boxCoords (blockBounds shape chunks bid)).map (ravel shape)

/-- One iteration of the merge loop over `multisets[1:]`: scatter the chunk's
argmax, fold its entries into the global table, and scatter the remapped
offsets. -/
def mergeStep (shape chunks : List Nat) (st : List Nat × List Nat × List Hist)
    (p : Nat × LabelMultiset) : List Nat × List Nat × List Hist :=
  let ind := blockIndices shape chunks p.1
  let tf := tableFold st.2.2 p.2.entries
  (writeAll st.1 (ind.zip p.2.argmax),
   writeAll st.2.1 (ind.zip (p.2.offsets.map (fun o => tf.2.getD o 0))),
   tf.1)

def merge_multisets (multisets : List LabelMultiset)
    (grid_positions : List (List Nat)) (shape chunks : List Nat) :
    Except String LabelMultiset :=
  match _compute_multiset_vector multisets grid_positions shape chunks with
  | Except.error e => Except.error e
  | Except.ok vec =>
    match vec with
    | [] => Except.error "list index out of range"
    | ms0 :: rest =>
      let size := prodl shape
      let ind0 := blockIndices shape chunks 0
      let st0 : List Nat × List Nat × List Hist :=
        (writeAll (List.replicate size 0) (ind0.zip ms0.argmax),
         writeAll (List.replicate size 0) (ind0.zip ms0.offsets),
         ms0.entries)
      let res := (List.enumFrom 1 rest).foldl (mergeStep shape chunks) st0
      Except.ok { argmax := res.1, offsets := res.2.1, entries := res.2.2, shape := shape }

/-! ### Theorems about the constructor -/

theorem flatten_singleton_map (l : List Nat) : (l.map (fun x => [x])).flatten = l := by
  induction l with
  | nil => rfl
  | cons x xs ih => simp [ih]

theorem flatten_const_map (l : List Nat) (c : Nat) :
    (l.map (fun _ => [c])).flatten = List.replicate l.length c := by
  induction l with
  | nil => rfl
  | cons x xs ih => simp [ih, List.replicate]

theorem construct_ids (labels : LabelArray) :
    (create_multiset_from_labels labels).ids = uniqueSorted labels.data := by
  unfold create_multiset_from_labels LabelMultiset.ids
  simp only [List.map_map]
  have h : ((fun e : Hist => e.map Prod.fst) ∘ fun i => [(i, 1)]) = fun i => [i] := by
    funext i
    rfl
  rw [h, flatten_singleton_map]

theorem construct_counts (labels : LabelArray) :
    (create_multiset_from_labels labels).counts
      = List.replicate (uniqueSorted labels.data).length 1 := by
  unfold create_multiset_from_labels LabelMultiset.counts
  simp only [List.map_map]
  have h : ((fun e : Hist => e.map Prod.snd) ∘ fun i : Nat => [(i, 1)]) = fun _ => [1] := by
    funext i
    rfl
  rw [h, flatten_const_map]

/-- C1: for every dense label array, the argmax of the constructed multiset is
the label array flattened in C-order (`create_multiset_from_labels` stores
`labels.flatten()` as argmax verbatim). -/
theorem construct_argmax_roundtrip (labels : LabelArray) :
    (create_multiset_from_labels labels).argmax = labels.data := rfl

/-- C3: the constructed multiset's id table is the sorted list of distinct
labels, its counts are all one, its entries are the singleton histograms of
the distinct ids (one entry per distinct label), and each voxel's offset is
the index of its label in the sorted id table. -/
theorem construct_entry_table (labels : LabelArray) :
    (create_multiset_from_labels labels).ids.Sorted (· < ·) ∧
    (create_multiset_from_labels labels).ids.Nodup ∧
    (∀ x, x ∈ (create_multiset_from_labels labels).ids ↔ x ∈ labels.data) ∧
    (create_multiset_from_labels labels).counts
      = List.replicate (create_multiset_from_labels labels).ids.length 1 ∧
    (create_multiset_from_labels labels).entries
      = (create_multiset_from_labels labels).ids.map (fun i => [(i, 1)]) ∧
    (create_multiset_from_labels labels).entries.length
      = (create_multiset_from_labels labels).ids.length ∧
    (create_multiset_from_labels labels).offsets
      = labels.data.map (fun v => idxOf v (create_multiset_from_labels labels).ids) := by
  rw [construct_ids, construct_counts]
  refine ⟨sorted_uniqueSorted _, nodup_uniqueSorted _,
    fun x => mem_uniqueSorted, rfl, rfl, by simp [create_multiset_from_labels], rfl⟩

/-! ### Theorems about the downsampler -/

theorem getD_map_range {α : Type} {f : Nat → α} {d : α} {n b : Nat} (hb : b < n) :
    (((List.range n).map f).getD b d) = f b := by
  rw [List.getD_eq_getElem _ _ (by simpa using hb), List.getElem_map, List.getElem_range]

/-- C4: for positive per-axis scale factors, downsampling succeeds and the
output shape is the element-wise ceiling `ceil(S / scale_factor)`. -/
theorem downsample_shape (m : LabelMultiset) (scale_factor : List Int)
    (restrict_set : Int) (hpos : ∀ s ∈ scale_factor, 0 < s) :
    ∃ out, downsample_multiset (some m) scale_factor restrict_set = Except.ok out ∧
      out.shape = List.zipWith (fun sh sc => ceilDiv sh sc.toNat) m.shape scale_factor := by
  have hany : scale_factor.any (fun s => decide (s ≤ 0)) = false := by
    rw [List.any_eq_false]
    intro s hs
    simpa using not_le.mpr (hpos s hs)
  simp only [downsample_multiset]
  rw [if_neg (by simp [hany])]
  exact ⟨_, rfl, by simp [List.zipWith_map_right]⟩

/-- C5: `downsample_multiset` raises exactly when the input is not a
`LabelMultiset` (modelled as `none`) or some axis of the scale factor is
non-positive; in every other case it returns a multiset. -/
theorem downsample_raises_iff (input : Option LabelMultiset)
    (scale_factor : List Int) (restrict_set : Int) :
    (∃ e, downsample_multiset input scale_factor restrict_set = Except.error e) ↔
      input = none ∨ ∃ s ∈ scale_factor, s ≤ 0 := by
  cases input with
  | none => simp [downsample_multiset]
  | some m =>
    simp only [downsample_multiset]
    by_cases hany : scale_factor.any (fun s => decide (s ≤ 0)) = true
    · rw [if_pos hany]
      constructor
      · intro _
        right
        rcases List.any_eq_true.mp hany with ⟨s, hs, hdec⟩
        exact ⟨s, hs, by simpa using hdec⟩
      · intro _
        exact ⟨"Invalid scale factor", rfl⟩
    · rw [if_neg hany]
      constructor
      · rintro ⟨e, he⟩
        simp at he
      · rintro (h | ⟨s, hs, hle⟩)
        · cases h
        · exact absurd (List.any_eq_true.mpr ⟨s, hs, by simpa using hle⟩) hany

/-! ### Theorems about merging: type guard and grid validation -/

/-- C6 (evaluation of the source's guard at the failing input): when
`multisets` is a list (`isinstance(multisets, (tuple, list))` is true) whose
sole element is not a `LabelMultiset`, the guard written with `and` does NOT
raise, although the spec requires an invalid-argument error. -/
theorem merge_type_guard_list_not_checked :
    mergeTypeGuardRaises true [false] = false := rfl

/-- C7: whenever the number of blocks of the blocking of (shape, chunks)
differs from the number of supplied multisets, `merge_multisets` fails with
the "Invalid grid" error before producing any output. -/
theorem compute_vector_count_mismatch (msets : List LabelMultiset)
    (gps : List (List Nat)) (shape chunks : List Nat)
    (h : prodl (blocksPerAxis shape chunks) ≠ msets.length) :
    _compute_multiset_vector msets gps shape chunks = Except.error "Invalid grid" := by
  unfold _compute_multiset_vector
  exact if_pos h

theorem merge_grid_count_mismatch (msets : List LabelMultiset)
    (gps : List (List Nat)) (shape chunks : List Nat)
    (h : numberOfBlocks shape chunks ≠ msets.length) :
    merge_multisets msets gps shape chunks = Except.error "Invalid grid" := by
  unfold merge_multisets
  rw [compute_vector_count_mismatch msets gps shape chunks h]

/-- Witness for C7 at a concrete input: one block but zero multisets. -/
theorem merge_grid_count_mismatch_witness :
    merge_multisets [] [] [1] [1] = Except.error "Invalid grid" :=
  merge_grid_count_mismatch [] [] [1] [1] (by decide)

/-- Witness for C4 at a concrete input. -/
theorem downsample_shape_witness :
    ∃ out, downsample_multiset
        (some (create_multiset_from_labels ⟨[3, 3], [1, 1, 2, 1, 1, 2, 3, 3, 4], rfl⟩))
        [2, 2] (-1) = Except.ok out ∧
      out.shape = List.zipWith (fun sh sc => ceilDiv sh sc.toNat) [3, 3] ([2, 2] : List Int) :=
  downsample_shape _ [2, 2] (-1) (by decide)

theorem histTotal_flatten (L : List Hist) :
    histTotal L.flatten = (L.map histTotal).sum := by
  induction L with
  | nil => rfl
  | cons h hs ih => simp [histTotal_append, ih]

theorem countOf_flatten (L : List Hist) (i : Nat) :
    countOf L.flatten i = (L.map (fun h => countOf h i)).sum := by
  induction L with
  | nil => rfl
  | cons h hs ih => simp [countOf_append, ih]

/-- C8 (amended): for unrestricted downsampling of a valid multiset with
positive scale factors, each output voxel's entry is the canonical combined
histogram of its block; its total mass is the sum of the total masses of the
contributing input voxels' histograms, and the aggregated count of every id
is the sum of the contributing voxels' counts for that id; the number of
contributing voxels is the product of the block's (boundary-clipped) shape. -/
theorem downsample_histogram_conservation (m : LabelMultiset)
    (scale_factor : List Int) (hv : ValidMultiset m)
    (hpos : ∀ s ∈ scale_factor, 0 < s) :
    ∃ out, downsample_multiset (some m) scale_factor (-1) = Except.ok out ∧
      ∀ b, b < numberOfBlocks m.shape (scale_factor.map Int.toNat) →
        entryOfVoxel out b
          = histOfPairs (blockPairs m (scale_factor.map Int.toNat) b) ∧
        histTotal (entryOfVoxel out b)
          = ((blockIndices m.shape (scale_factor.map Int.toNat) b).map
              (fun v => histTotal (entryOfVoxel m v))).sum ∧
        (∀ i, countOf (entryOfVoxel out b) i
          = ((blockIndices m.shape (scale_factor.map Int.toNat) b).map
              (fun v => countOf (entryOfVoxel m v) i)).sum) ∧
        (blockIndices m.shape (scale_factor.map Int.toNat) b).length
          = prodl (blockShape m.shape (scale_factor.map Int.toNat) b) := by
  have hany : scale_factor.any (fun s => decide (s ≤ 0)) = false := by
    rw [List.any_eq_false]
    intro s hs
    simpa using not_le.mpr (hpos s hs)
  simp only [downsample_multiset]
  rw [if_neg (by simp [hany])]
  refine ⟨_, rfl, ?_⟩
  intro b hb
  have hlen : ((List.range (numberOfBlocks m.shape (scale_factor.map Int.toNat))).map
      (fun b => histRestrict (-1) (histOfPairs
        (blockPairs m (scale_factor.map Int.toNat) b)))).length
      = numberOfBlocks m.shape (scale_factor.map Int.toNat) := by
    simp
  have hentry : entryOfVoxel
      { argmax := ((List.range (numberOfBlocks m.shape (scale_factor.map Int.toNat))).map
          (fun b => histRestrict (-1) (histOfPairs
            (blockPairs m (scale_factor.map Int.toNat) b)))).map histArgmax
        offsets := (buildTable ((List.range (numberOfBlocks m.shape
          (scale_factor.map Int.toNat))).map
          (fun b => histRestrict (-1) (histOfPairs
            (blockPairs m (scale_factor.map Int.toNat) b))))).2
        entries := (buildTable ((List.range (numberOfBlocks m.shape
          (scale_factor.map Int.toNat))).map
          (fun b => histRestrict (-1) (histOfPairs
            (blockPairs m (scale_factor.map Int.toNat) b))))).1
        shape := List.zipWith (fun sh sc => ceilDiv sh sc)
          m.shape (scale_factor.map Int.toNat) } b
      = histOfPairs (blockPairs m (scale_factor.map Int.toNat) b) := by
    unfold entryOfVoxel buildTable
    rw [tableFold_getD [] _ b (by rw [hlen]; exact hb)]
    rw [getD_map_range hb, histRestrict_neg_one]
  refine ⟨hentry, ?_, ?_, ?_⟩
  · rw [hentry, histTotal_histOfPairs]
    unfold blockPairs blockIndices
    rw [histTotal_flatten, List.map_map, List.map_map]
    rfl
  · intro i
    rw [hentry, countOf_histOfPairs]
    unfold blockPairs blockIndices
    rw [countOf_flatten, List.map_map, List.map_map]
    rfl
  · unfold blockIndices blockShape
    rw [List.length_map, boxCoords_length]

/-- C8 counterexample to the claim as stated: a valid one-voxel multiset whose
single entry carries count 2. Unrestricted downsampling by factor 1 yields an
output voxel whose entry's counts sum to 2, while the block contains exactly
one input voxel. -/
theorem downsample_conservation_counterexample :
    ValidMultiset (⟨[5], [0], [[(5, 2)]], [1]⟩ : LabelMultiset) ∧
    (downsample_multiset (some (⟨[5], [0], [[(5, 2)]], [1]⟩ : LabelMultiset))
        [1] (-1)).toOption.map (fun out => histTotal (entryOfVoxel out 0)) = some 2 ∧
    (blockIndices [1] [1] 0).length = 1 ∧ (2 : Nat) ≠ 1 := by
  decide

/-- Witness for C8 at a concrete input (the spec's 4×4 scenario, factor 2×2). -/
theorem downsample_histogram_conservation_witness :
    ∃ out, downsample_multiset
        (some (create_multiset_from_labels
          ⟨[4, 4], [1, 1, 2, 2, 1, 1, 2, 2, 3, 3, 4, 4, 3, 3, 4, 4], rfl⟩))
        [2, 2] (-1) = Except.ok out ∧
      ∀ b, b < numberOfBlocks
          (create_multiset_from_labels
            ⟨[4, 4], [1, 1, 2, 2, 1, 1, 2, 2, 3, 3, 4, 4, 3, 3, 4, 4], rfl⟩).shape
          (([2, 2] : List Int).map Int.toNat) →
        entryOfVoxel out b
          = histOfPairs (blockPairs (create_multiset_from_labels
              ⟨[4, 4], [1, 1, 2, 2, 1, 1, 2, 2, 3, 3, 4, 4, 3, 3, 4, 4], rfl⟩)
              (([2, 2] : List Int).map Int.toNat) b) ∧
        histTotal (entryOfVoxel out b)
          = ((blockIndices (create_multiset_from_labels
              ⟨[4, 4], [1, 1, 2, 2, 1, 1, 2, 2, 3, 3, 4, 4, 3, 3, 4, 4], rfl⟩).shape
              (([2, 2] : List Int).map Int.toNat) b).map
              (fun v => histTotal (entryOfVoxel (create_multiset_from_labels
                ⟨[4, 4], [1, 1, 2, 2, 1, 1, 2, 2, 3, 3, 4, 4, 3, 3, 4, 4], rfl⟩) v))).sum ∧
        (∀ i, countOf (entryOfVoxel out b) i
          = ((blockIndices (create_multiset_from_labels
              ⟨[4, 4], [1, 1, 2, 2, 1, 1, 2, 2, 3, 3, 4, 4, 3, 3, 4, 4], rfl⟩).shape
              (([2, 2] : List Int).map Int.toNat) b).map
              (fun v => countOf (entryOfVoxel (create_multiset_from_labels
                ⟨[4, 4], [1, 1, 2, 2, 1, 1, 2, 2, 3, 3, 4, 4, 3, 3, 4, 4], rfl⟩) v) i)).sum) ∧
        (blockIndices (create_multiset_from_labels
            ⟨[4, 4], [1, 1, 2, 2, 1, 1, 2, 2, 3, 3, 4, 4, 3, 3, 4, 4], rfl⟩).shape
            (([2, 2] : List Int).map Int.toNat) b).length
          = prodl (blockShape (create_multiset_from_labels
              ⟨[4, 4], [1, 1, 2, 2, 1, 1, 2, 2, 3, 3, 4, 4, 3, 3, 4, 4], rfl⟩).shape
              (([2, 2] : List Int).map Int.toNat) b) :=
  downsample_histogram_conservation
    (create_multiset_from_labels
      ⟨[4, 4], [1, 1, 2, 2, 1, 1, 2, 2, 3, 3, 4, 4, 3, 3, 4, 4], rfl⟩)
    [2, 2] (by decide) (by decide)

/-! ### Scatter-write lemmas -/

theorem writeAll_cons (a : List Nat) (p : Nat × Nat) (ps : List (Nat × Nat)) :
    writeAll a (p :: ps) = writeAll (a.set p.1 p.2) ps := rfl

theorem writeAll_append (a : List Nat) (ps qs : List (Nat × Nat)) :
    writeAll a (ps ++ qs) = writeAll (writeAll a ps) qs :=
  List.foldl_append _ _ _ _

theorem writeAll_length (a : List Nat) (ps : List (Nat × Nat)) :
    (writeAll a ps).length = a.length := by
  induction ps generalizing a with
  | nil => rfl
  | cons p ps ih => rw [writeAll_cons, ih, List.length_set]

theorem getD_set_of_ne (a : List Nat) {j i : Nat} (h : j ≠ i) (v : Nat) :
    (a.set j v).getD i 0 = a.getD i 0 := by
  rcases Nat.lt_or_ge i a.length with hlt | hge
  · rw [List.getD_eq_getElem _ _ (by simpa using hlt),
      List.getD_eq_getElem _ _ hlt, List.getElem_set_ne h]
  · rw [List.getD_eq_default _ _ (by simpa using hge), List.getD_eq_default _ _ hge]

theorem getD_writeAll_not_mem (ps : List (Nat × Nat)) (a : List Nat) {i : Nat}
    (hni : ∀ q ∈ ps, q.1 ≠ i) :
    (writeAll a ps).getD i 0 = a.getD i 0 := by
  induction ps generalizing a with
  | nil => rfl
  | cons p ps ih =>
    rw [writeAll_cons, ih _ (fun q hq => hni q (List.mem_cons_of_mem _ hq)),
      getD_set_of_ne a (hni p (List.mem_cons_self _ _)) p.2]

/-- The value at a written index: if `(i, v)` is among the write pairs and
every pair targeting `i` writes the same value `v`, the final array holds `v`
at `i`. -/
theorem getD_writeAll_mem (ps : List (Nat × Nat)) (a : List Nat) {i v : Nat}
    (hmem : (i, v) ∈ ps) (hcong : ∀ q ∈ ps, q.1 = i → q.2 = v)
    (hlt : i < a.length) :
    (writeAll a ps).getD i 0 = v := by
  induction ps generalizing a with
  | nil => simp at hmem
  | cons p ps ih =>
    rw [writeAll_cons]
    by_cases hex : ∃ q ∈ ps, q.1 = i
    · rcases hex with ⟨⟨q1, q2⟩, hq, hqi⟩
      simp only at hqi
      subst hqi
      have hqv : q2 = v := hcong _ (List.mem_cons_of_mem _ hq) rfl
      subst hqv
      exact ih _ hq (fun r hr hri => hcong r (List.mem_cons_of_mem _ hr) hri)
        (by rw [List.length_set]; exact hlt)
    · push_neg at hex
      rw [getD_writeAll_not_mem ps _ hex]
      rcases List.mem_cons.mp hmem with heq | hmem'
      · rw [← heq]
        rw [List.getD_eq_getElem _ _ (by simpa using hlt)]
        exact List.getElem_set_self _
      · exact absurd rfl (hex _ hmem')

/-- Elements of the scatter result come from the initial array or the written
values. -/
theorem mem_writeAll (ps : List (Nat × Nat)) (a : List Nat) {x : Nat}
    (hx : x ∈ writeAll a ps) : x ∈ a ∨ ∃ q ∈ ps, q.2 = x := by
  induction ps generalizing a with
  | nil => exact Or.inl hx
  | cons p ps ih =>
    rw [writeAll_cons] at hx
    rcases ih _ hx with hin | ⟨q, hq, hqx⟩
    · rcases List.mem_or_eq_of_mem_set hin with h | h
      · exact Or.inl h
      · exact Or.inr ⟨p, List.mem_cons_self _ _, h.symm⟩
    · exact Or.inr ⟨q, List.mem_cons_of_mem _ hq, hqx⟩

theorem foldl_writeAll_flatten {α : Type} (items : List α)
    (g : α → List (Nat × Nat)) (a : List Nat) :
    items.foldl (fun acc it => writeAll acc (g it)) a
      = writeAll a ((items.map g).flatten) := by
  induction items generalizing a with
  | nil => rfl
  | cons it its ih =>
    simp only [List.map_cons, List.flatten_cons, List.foldl_cons]
    rw [writeAll_append, ih]

/-! ### Decomposition of the merge loop -/

theorem mergeLoop_fst (shape chunks : List Nat)
    (items : List (Nat × LabelMultiset)) (a b : List Nat) (t : List Hist) :
    (items.foldl (mergeStep shape chunks) (a, b, t)).1
      = items.foldl
          (fun am p => writeAll am ((blockIndices shape chunks p.1).zip p.2.argmax)) a := by
  induction items generalizing a b t with
  | nil => rfl
  | cons p ps ih =>
    simp only [List.foldl_cons, mergeStep]
    exact ih _ _ _

theorem mergeLoop_snd (shape chunks : List Nat)
    (items : List (Nat × LabelMultiset)) (a b : List Nat) (t : List Hist) :
    (items.foldl (mergeStep shape chunks) (a, b, t)).2
      = items.foldl
          (fun (s : List Nat × List Hist) p =>
            (writeAll s.1 ((blockIndices shape chunks p.1).zip
              (p.2.offsets.map (fun o => (tableFold s.2 p.2.entries).2.getD o 0))),
             (tableFold s.2 p.2.entries).1)) (b, t) := by
  induction items generalizing a b t with
  | nil => rfl
  | cons p ps ih =>
    simp only [List.foldl_cons, mergeStep]
    exact ih _ _ _

/-! ### C9 part 1: invariants of the constructor output -/

theorem construct_valid (labels : LabelArray) :
    ValidMultiset (create_multiset_from_labels labels) := by
  refine ⟨labels.hlen, ?_, ?_⟩
  · show (List.map (fun v => idxOf v (uniqueSorted labels.data)) labels.data).length
      = prodl labels.shape
    rw [List.length_map]
    exact labels.hlen
  · intro o ho
    have ho' : o ∈ labels.data.map (fun v => idxOf v (uniqueSorted labels.data)) := ho
    rcases List.mem_map.mp ho' with ⟨v, hv2, rfl⟩
    show _ < (List.map (fun i : Nat => [(i, 1)]) (uniqueSorted labels.data)).length
    rw [List.length_map]
    exact idxOf_lt_length (mem_uniqueSorted.mpr hv2)

/-! ### Coverage and uniqueness of blocks -/

theorem prodl_pos {l : List Nat} : 0 < prodl l ↔ ∀ x ∈ l, 0 < x := by
  induction l with
  | nil => simp
  | cons a l ih =>
    rw [prodl_cons]
    constructor
    · intro h x hx
      have ha : a ≠ 0 := by rintro rfl; simp at h
      have hl : prodl l ≠ 0 := by
        rintro h0
        rw [h0, Nat.mul_zero] at h
        simp at h
      rcases List.mem_cons.mp hx with rfl | hx'
      · omega
      · exact ih.mp (Nat.pos_of_ne_zero hl) x hx'
    · intro h
      exact Nat.mul_pos (h a (List.mem_cons_self _ _))
        (ih.mpr fun x hx => h x (List.mem_cons_of_mem _ hx))

theorem numberOfBlocks_pos {shape chunks : List Nat}
    (hdim : chunks.length = shape.length)
    (hspos : ∀ s ∈ shape, 0 < s) (hcpos : ∀ c ∈ chunks, 0 < c) :
    0 < numberOfBlocks shape chunks := by
  unfold numberOfBlocks blocksPerAxis
  rw [prodl_pos]
  intro x hx
  rw [List.mem_iff_getElem] at hx
  rcases hx with ⟨n, hn, rfl⟩
  rw [List.getElem_zipWith]
  have hnlen : n < shape.length ∧ n < chunks.length := by
    rw [List.length_zipWith] at hn
    omega
  exact ceilDiv_pos (hspos _ (List.getElem_mem hnlen.1)) (hcpos _ (List.getElem_mem hnlen.2))

/-- The grid coordinate of a voxel coordinate (`c / chunks` per axis) is a
valid block-grid coordinate. -/
theorem grid_inBox {shape chunks c : List Nat} (hc : InBox shape c)
    (hdim : chunks.length = shape.length) (hcpos : ∀ x ∈ chunks, 0 < x) :
    InBox (blocksPerAxis shape chunks) (List.zipWith (· / ·) c chunks) := by
  induction hc generalizing chunks with
  | nil =>
    cases chunks with
    | nil => exact List.Forall₂.nil
    | cons ch chs => simp at hdim
  | @cons d x sh cs hx h ih =>
    cases chunks with
    | nil => simp at hdim
    | cons ch chs =>
      refine List.Forall₂.cons ?_
        (ih (by simpa using hdim) (fun y hy => hcpos y (List.mem_cons_of_mem _ hy)))
      exact div_lt_ceilDiv (hcpos ch (List.mem_cons_self _ _)) hx

/-- A voxel coordinate lies within the bounds of the block indexed by its
grid coordinate. -/
theorem coord_mem_own_block {shape chunks c : List Nat} (hc : InBox shape c)
    (hdim : chunks.length = shape.length) (hcpos : ∀ x ∈ chunks, 0 < x) :
    List.Forall₂ (fun bd x => bd.1 ≤ x ∧ x < bd.2)
      (blockBounds shape chunks
        (ravel (blocksPerAxis shape chunks) (List.zipWith (· / ·) c chunks))) c := by
  have hg := grid_inBox hc hdim hcpos
  unfold blockBounds
  rw [unravel_ravel hg]
  clear hg
  induction hc generalizing chunks with
  | nil =>
    cases chunks with
    | nil => exact List.Forall₂.nil
    | cons ch chs => simp at hdim
  | @cons d x sh cs hx h ih =>
    cases chunks with
    | nil => simp at hdim
    | cons ch chs =>
      have hch : 0 < ch := hcpos ch (List.mem_cons_self _ _)
      refine List.Forall₂.cons ⟨Nat.div_mul_le_self _ _, ?_⟩
        (ih (by simpa using hdim) (fun y hy => hcpos y (List.mem_cons_of_mem _ hy)))
      refine lt_min ?_ hx
      calc x = ch * (x / ch) + x % ch := (Nat.div_add_mod x ch).symm
        _ < ch * (x / ch) + ch := by have := Nat.mod_lt x hch; omega
        _ = (x / ch + 1) * ch := by ring

/-- Componentwise: membership in a block's bounds determines the grid
coordinate, and the coordinate lies inside the full shape. -/
theorem zip_bounds_facts : ∀ (p shape chunks c : List Nat),
    shape.length = p.length → chunks.length = p.length →
    List.Forall₂ (fun bd x => bd.1 ≤ x ∧ x < bd.2)
      ((p.zip (shape.zip chunks)).map
        (fun q => (q.1 * q.2.2, min ((q.1 + 1) * q.2.2) q.2.1))) c →
    List.zipWith (· / ·) c chunks = p ∧ InBox shape c := by
  intro p
  induction p with
  | nil =>
    intro shape chunks c hs hc hmem
    cases shape with
    | cons s sh => simp at hs
    | nil =>
      cases hmem
      exact ⟨by simp, List.Forall₂.nil⟩
  | cons q p ih =>
    intro shape chunks c hs hc hmem
    cases shape with
    | nil => simp at hs
    | cons s sh =>
      cases chunks with
      | nil => simp at hc
      | cons ch chs =>
        cases c with
        | nil => cases hmem
        | cons x xs =>
          simp only [List.zip_cons_cons, List.map_cons] at hmem
          cases hmem with
          | cons hx hrest =>
            rcases ih sh chs xs (by simpa using hs) (by simpa using hc) hrest
              with ⟨hdiv, hbox⟩
            obtain ⟨hlo, hhi⟩ := hx
            have hhi1 : x < (q + 1) * ch := lt_of_lt_of_le hhi (Nat.min_le_left _ _)
            have hhi2 : x < s := lt_of_lt_of_le hhi (Nat.min_le_right _ _)
            have hch : 0 < ch := by
              rcases Nat.eq_zero_or_pos ch with rfl | h
              · simp at hhi1
              · exact h
            have hxdiv : x / ch = q := by
              have h1 : q ≤ x / ch := (Nat.le_div_iff_mul_le hch).mpr hlo
              have h2 : x / ch < q + 1 := Nat.div_lt_of_lt_mul (Nat.mul_comm (q + 1) ch ▸ hhi1)
              omega
            refine ⟨?_, List.Forall₂.cons hhi2 hbox⟩
            simp [hxdiv, hdiv]

/-- The block id containing a coordinate is unique: membership in block `bid`
forces `bid` to be the ravel of the coordinate's grid position. -/
theorem block_id_of_mem {shape chunks : List Nat} {bid : Nat} {c : List Nat}
    (hdim : chunks.length = shape.length)
    (hbid : bid < numberOfBlocks shape chunks)
    (hmem : List.Forall₂ (fun bd x => bd.1 ≤ x ∧ x < bd.2)
      (blockBounds shape chunks bid) c) :
    ravel (blocksPerAxis shape chunks) (List.zipWith (· / ·) c chunks) = bid ∧
      InBox shape c := by
  have hplen : (unravel (blocksPerAxis shape chunks) bid).length = shape.length := by
    rw [unravel_length]
    unfold blocksPerAxis
    rw [List.length_zipWith, hdim, Nat.min_self]
  rcases zip_bounds_facts (unravel (blocksPerAxis shape chunks) bid) shape chunks c
      hplen.symm (hdim.trans hplen.symm) hmem with ⟨hdiv, hbox⟩
  refine ⟨?_, hbox⟩
  rw [hdiv, ravel_unravel hbid]

/-! ### The canonical split of a label volume into grid chunks -/

theorem zip_map_same {α β γ : Type} (f : α → β) (g : α → γ) (l : List α) :
    (l.map f).zip (l.map g) = l.map (fun x => (f x, g x)) :=
  List.zip_map' f g l

theorem enumFrom_zero_mem {α : Type} {l : List α} {j : Nat} (hj : j < l.length) :
    (j, l[j]) ∈ List.enumFrom 0 l := by
  rw [List.mem_iff_getElem]
  refine ⟨j, by simpa [List.enumFrom_length] using hj, ?_⟩
  rw [List.getElem_enumFrom]
  simp

theorem mem_enumFrom_zero {α : Type} {l : List α} {p : Nat × α}
    (hp : p ∈ List.enumFrom 0 l) : ∃ j, ∃ hj : j < l.length, p = (j, l[j]) := by
  rw [List.mem_iff_getElem] at hp
  rcases hp with ⟨n, hn, hget⟩
  have hn' : n < l.length := by simpa [List.enumFrom_length] using hn
  refine ⟨n, hn', ?_⟩
  rw [List.getElem_enumFrom] at hget
  rw [← hget]
  simp

/-- The sub-array of `L` covered by block `k` of the (shape, chunks)
blocking: the chunk a caller would cut out before calling the constructor. -/
def chunkOf (L : LabelArray) (chunks : List Nat) (k : Nat) : LabelArray :=
  { shape := blockShape L.shape chunks k
    data := (boxCoords (blockBounds L.shape chunks k)).map
      (fun c => L.data.getD (ravel L.shape c) 0)
    hlen := by
      rw [List.length_map, boxCoords_length]
      rfl }

/-- The per-chunk constructed multisets of the canonical split, in the
blocking's C-order. -/
def canonicalChunks (L : LabelArray) (chunks : List Nat) : List LabelMultiset :=
  (List.range (numberOfBlocks L.shape chunks)).map
    (fun k => create_multiset_from_labels (chunkOf L chunks k))

/-- The grid positions of the canonical split, aligned with
`canonicalChunks`. -/
def canonicalPositions (L : LabelArray) (chunks : List Nat) : List (List Nat) :=
  (List.range (numberOfBlocks L.shape chunks)).map
    (unravel (blocksPerAxis L.shape chunks))

theorem canonical_positions_ravel (L : LabelArray) (chunks : List Nat) :
    (canonicalPositions L chunks).map (ravel (blocksPerAxis L.shape chunks))
      = List.range (numberOfBlocks L.shape chunks) := by
  unfold canonicalPositions
  rw [List.map_map]
  have h : ∀ k ∈ List.range (numberOfBlocks L.shape chunks),
      (ravel (blocksPerAxis L.shape chunks) ∘ unravel (blocksPerAxis L.shape chunks)) k
        = (fun k => k) k := by
    intro k hk
    exact ravel_unravel (List.mem_range.mp hk)
  rw [List.map_congr_left h, List.map_id']

theorem canonicalChunks_length (L : LabelArray) (chunks : List Nat) :
    (canonicalChunks L chunks).length = numberOfBlocks L.shape chunks := by
  unfold canonicalChunks
  rw [List.length_map, List.length_range]

/-- The canonical split passes every grid validation of
`_compute_multiset_vector` and comes back unchanged. -/
theorem compute_vector_canonical (L : LabelArray) (chunks : List Nat) :
    _compute_multiset_vector (canonicalChunks L chunks) (canonicalPositions L chunks)
      L.shape chunks = Except.ok (canonicalChunks L chunks) := by
  unfold _compute_multiset_vector
  rw [canonical_positions_ravel, canonicalChunks_length]
  rw [if_neg (by simp [numberOfBlocks])]
  rw [if_neg ?hbounds]
  case hbounds =>
    intro hcontra
    rcases List.any_eq_true.mp hcontra with ⟨gp, hgp, hbad⟩
    rcases List.mem_map.mp hgp with ⟨k, hk, rfl⟩
    rw [inBoundsB_iff.mpr (unravel_inBox (List.mem_range.mp hk))] at hbad
    simp at hbad
  rw [if_neg ?hrange]
  case hrange =>
    intro hcontra
    rcases List.any_eq_true.mp hcontra with ⟨p, hp, hbad⟩
    exact absurd (of_decide_eq_true hbad) (not_le.mpr (List.mem_range.mp hp))
  rw [if_neg ?hshape]
  case hshape =>
    intro hcontra
    rcases List.any_eq_true.mp hcontra with ⟨p, hp, hbad⟩
    have hplt := List.mem_range.mp hp
    have hgetp : (canonicalChunks L chunks).getD p default
        = create_multiset_from_labels (chunkOf L chunks p) := by
      unfold canonicalChunks
      exact getD_map_range hplt
    rw [hgetp] at hbad
    exact (of_decide_eq_true hbad) rfl
  rw [if_neg ?hfill]
  case hfill =>
    intro hcontra
    rcases List.any_eq_true.mp hcontra with ⟨i, hi, hbad⟩
    simp only [List.contains] at hbad
    rw [List.elem_iff.mpr hi] at hbad
    simp at hbad

/-- Unfolding of a successful merge: the result record in terms of the merge
loop. -/
theorem merge_ok_unfold (msets : List LabelMultiset) (gps : List (List Nat))
    (shape chunks : List Nat) (ms0 : LabelMultiset) (rest : List LabelMultiset)
    (hok : _compute_multiset_vector msets gps shape chunks = Except.ok (ms0 :: rest)) :
    merge_multisets msets gps shape chunks = Except.ok
      { argmax := ((List.enumFrom 1 rest).foldl (mergeStep shape chunks)
          (writeAll (List.replicate (prodl shape) 0)
            ((blockIndices shape chunks 0).zip ms0.argmax),
           writeAll (List.replicate (prodl shape) 0)
            ((blockIndices shape chunks 0).zip ms0.offsets),
           ms0.entries)).1
        offsets := ((List.enumFrom 1 rest).foldl (mergeStep shape chunks)
          (writeAll (List.replicate (prodl shape) 0)
            ((blockIndices shape chunks 0).zip ms0.argmax),
           writeAll (List.replicate (prodl shape) 0)
            ((blockIndices shape chunks 0).zip ms0.offsets),
           ms0.entries)).2.1
        entries := ((List.enumFrom 1 rest).foldl (mergeStep shape chunks)
          (writeAll (List.replicate (prodl shape) 0)
            ((blockIndices shape chunks 0).zip ms0.argmax),
           writeAll (List.replicate (prodl shape) 0)
            ((blockIndices shape chunks 0).zip ms0.offsets),
           ms0.entries)).2.2
        shape := shape } := by
  unfold merge_multisets
  rw [hok]

theorem canonicalChunks_getElem (L : LabelArray) (chunks : List Nat) {k : Nat}
    (hk : k < (canonicalChunks L chunks).length) :
    (canonicalChunks L chunks)[k]
      = create_multiset_from_labels (chunkOf L chunks k) := by
  simp only [canonicalChunks, List.getElem_map, List.getElem_range]

/-- Every pair in the flattened argmax write list of the canonical merge is
`(ravel c, L[c])` for some in-shape coordinate `c`. -/
theorem bigPairs_value (L : LabelArray) (chunks : List Nat)
    (hdim : chunks.length = L.shape.length) {q : Nat × Nat}
    (hq : q ∈ ((List.enumFrom 0 (canonicalChunks L chunks)).map
      (fun p => (blockIndices L.shape chunks p.1).zip p.2.argmax)).flatten) :
    ∃ c', InBox L.shape c' ∧ q = (ravel L.shape c', L.data.getD (ravel L.shape c') 0) := by
  rcases List.mem_flatten.mp hq with ⟨inner, hinner, hqin⟩
  rcases List.mem_map.mp hinner with ⟨item, hitem, rfl⟩
  rcases mem_enumFrom_zero hitem with ⟨j, hj, rfl⟩
  rw [canonicalChunks_getElem L chunks hj] at hqin
  have hqin' : q ∈ ((boxCoords (blockBounds L.shape chunks j)).map (ravel L.shape)).zip
      ((boxCoords (blockBounds L.shape chunks j)).map
        (fun c => L.data.getD (ravel L.shape c) 0)) := hqin
  rw [zip_map_same] at hqin'
  rcases List.mem_map.mp hqin' with ⟨c', hc', rfl⟩
  have hjnB : j < numberOfBlocks L.shape chunks := by
    rw [← canonicalChunks_length L chunks]
    exact hj
  have hfacts := block_id_of_mem hdim hjnB (mem_boxCoords.mp hc')
  exact ⟨c', hfacts.2, rfl⟩

/-- The pair `(g, L[g])` occurs in the write list: the block containing the
coordinate of `g` contributes it. -/
theorem bigPairs_mem (L : LabelArray) (chunks : List Nat)
    (hdim : chunks.length = L.shape.length) (hcpos : ∀ c ∈ chunks, 0 < c)
    {g : Nat} (hg : g < prodl L.shape) :
    (g, L.data.getD g 0) ∈ ((List.enumFrom 0 (canonicalChunks L chunks)).map
      (fun p => (blockIndices L.shape chunks p.1).zip p.2.argmax)).flatten := by
  have hc : InBox L.shape (unravel L.shape g) := unravel_inBox hg
  have hrav : ravel L.shape (unravel L.shape g) = g := ravel_unravel hg
  have hk : ravel (blocksPerAxis L.shape chunks)
      (List.zipWith (· / ·) (unravel L.shape g) chunks) < numberOfBlocks L.shape chunks :=
    ravel_lt (grid_inBox hc hdim hcpos)
  have hkc : ravel (blocksPerAxis L.shape chunks)
      (List.zipWith (· / ·) (unravel L.shape g) chunks) < (canonicalChunks L chunks).length := by
    rw [canonicalChunks_length]
    exact hk
  have hmemblk := coord_mem_own_block hc hdim hcpos
  rw [List.mem_flatten]
  refine ⟨((blockIndices L.shape chunks (ravel (blocksPerAxis L.shape chunks)
      (List.zipWith (· / ·) (unravel L.shape g) chunks))).zip
      ((canonicalChunks L chunks)[ravel (blocksPerAxis L.shape chunks)
        (List.zipWith (· / ·) (unravel L.shape g) chunks)]).argmax), ?_, ?_⟩
  · exact List.mem_map.mpr ⟨_, enumFrom_zero_mem hkc, rfl⟩
  · rw [canonicalChunks_getElem L chunks hkc]
    have hzip : ((blockIndices L.shape chunks (ravel (blocksPerAxis L.shape chunks)
        (List.zipWith (· / ·) (unravel L.shape g) chunks))).zip
        (create_multiset_from_labels (chunkOf L chunks (ravel (blocksPerAxis L.shape chunks)
          (List.zipWith (· / ·) (unravel L.shape g) chunks)))).argmax)
        = (boxCoords (blockBounds L.shape chunks (ravel (blocksPerAxis L.shape chunks)
            (List.zipWith (· / ·) (unravel L.shape g) chunks)))).map
          (fun c => (ravel L.shape c, L.data.getD (ravel L.shape c) 0)) :=
      zip_map_same _ _ _
    rw [hzip]
    refine List.mem_map.mpr ⟨unravel L.shape g, mem_boxCoords.mpr hmemblk, ?_⟩
    rw [hrav]

/-- C2 (amended): for a label volume with positive extents and positive chunk
extents, merging the per-chunk constructed multisets of the canonical split —
the multisets supplied in the blocking's C-order, each with its grid
position — reproduces, voxel for voxel, the argmax of constructing the full
unsplit volume. (The source does not re-arrange the collection by grid
position, so the supply order must already be the canonical one; see the
counterexample for a swapped supply.) -/
theorem merge_equiv_construct (L : LabelArray) (chunks : List Nat)
    (hdim : chunks.length = L.shape.length)
    (hspos : ∀ s ∈ L.shape, 0 < s) (hcpos : ∀ c ∈ chunks, 0 < c) :
    ∃ M, merge_multisets (canonicalChunks L chunks) (canonicalPositions L chunks)
        L.shape chunks = Except.ok M ∧
      M.argmax = (create_multiset_from_labels L).argmax := by
  have hnB : 0 < numberOfBlocks L.shape chunks := numberOfBlocks_pos hdim hspos hcpos
  rcases hL : canonicalChunks L chunks with _ | ⟨ms0, rest⟩
  · exfalso
    have hlen := canonicalChunks_length L chunks
    rw [hL] at hlen
    simp at hlen
    omega
  · have hok := compute_vector_canonical L chunks
    rw [hL] at hok
    rw [← hL] at hok
    have hok' := hok
    rw [hL] at hok'
    refine ⟨_, merge_ok_unfold _ _ _ _ _ _ hok', ?_⟩
    show ((List.enumFrom 1 rest).foldl (mergeStep L.shape chunks)
        (writeAll (List.replicate (prodl L.shape) 0)
          ((blockIndices L.shape chunks 0).zip ms0.argmax),
         writeAll (List.replicate (prodl L.shape) 0)
          ((blockIndices L.shape chunks 0).zip ms0.offsets),
         ms0.entries)).1 = (create_multiset_from_labels L).argmax
    rw [mergeLoop_fst]
    have hstep : writeAll (List.replicate (prodl L.shape) 0)
        ((blockIndices L.shape chunks 0).zip ms0.argmax)
        = (fun am (p : Nat × LabelMultiset) =>
            writeAll am ((blockIndices L.shape chunks p.1).zip p.2.argmax))
          (List.replicate (prodl L.shape) 0) (0, ms0) := rfl
    rw [hstep, ← List.foldl_cons]
    have henum : ((0, ms0) :: List.enumFrom 1 rest)
        = List.enumFrom 0 (canonicalChunks L chunks) := by
      rw [hL]
      rfl
    rw [henum, foldl_writeAll_flatten]
    have hkey : ∀ gi, gi < prodl L.shape →
        (writeAll (List.replicate (prodl L.shape) 0)
          (((List.enumFrom 0 (canonicalChunks L chunks)).map
            (fun p => (blockIndices L.shape chunks p.1).zip p.2.argmax)).flatten)).getD gi 0
          = L.data.getD gi 0 := by
      intro gi hgi
      refine getD_writeAll_mem _ _ (bigPairs_mem L chunks hdim hcpos hgi) ?_
        (by rw [List.length_replicate]; exact hgi)
      intro q hq hq1
      rcases bigPairs_value L chunks hdim hq with ⟨c', hc', rfl⟩
      simp only at hq1
      rw [hq1]
    have hlen1 : (writeAll (List.replicate (prodl L.shape) 0)
        (((List.enumFrom 0 (canonicalChunks L chunks)).map
          (fun p => (blockIndices L.shape chunks p.1).zip p.2.argmax)).flatten)).length
        = prodl L.shape := by
      rw [writeAll_length, List.length_replicate]
    apply List.ext_getElem
    · rw [hlen1]
      exact L.hlen.symm
    · intro i h1 h2
      have h2' : i < L.data.length := h2
      have h3 := hkey i (by rw [← hlen1]; exact h1)
      rw [List.getD_eq_getElem _ _ h1, List.getD_eq_getElem _ _ h2'] at h3
      exact h3

/-- Witness for C2 at a concrete input: a 2×2 volume split into 1×2 chunks. -/
theorem merge_equiv_construct_witness :
    ∃ M, merge_multisets
        (canonicalChunks ⟨[2, 2], [1, 2, 3, 4], rfl⟩ [1, 2])
        (canonicalPositions ⟨[2, 2], [1, 2, 3, 4], rfl⟩ [1, 2])
        (⟨[2, 2], [1, 2, 3, 4], rfl⟩ : LabelArray).shape [1, 2] = Except.ok M ∧
      M.argmax = (create_multiset_from_labels ⟨[2, 2], [1, 2, 3, 4], rfl⟩).argmax :=
  merge_equiv_construct ⟨[2, 2], [1, 2, 3, 4], rfl⟩ [1, 2]
    (by decide) (by decide) (by decide)

/-- C2 counterexample to the claim as stated: the volume `[[1,2],[3,4]]` is
split into the two non-overlapping 1×2 chunks `[[1,2]]` (grid position (0,0))
and `[[3,4]]` (grid position (1,0)), which exactly tile the 2×2 shape and
whose shapes match the blocks implied by their grid positions. Supplying them
in the order `[B, A]` with their correct grid positions passes every
validation, yet `merge_multisets` scatters `multisets[k]` into block `k`
without re-arranging by grid position (`multiset_vector[pos] =
multisets[pos]` in the source), returning argmax `[3,4,1,2]` instead of
`construct(full).argmax = [1,2,3,4]`. -/
theorem merge_equiv_counterexample :
    (create_multiset_from_labels ⟨[1, 2], [3, 4], rfl⟩).shape
      = blockShape [2, 2] [1, 2] (ravel (blocksPerAxis [2, 2] [1, 2]) [1, 0]) ∧
    (create_multiset_from_labels ⟨[1, 2], [1, 2], rfl⟩).shape
      = blockShape [2, 2] [1, 2] (ravel (blocksPerAxis [2, 2] [1, 2]) [0, 0]) ∧
    (merge_multisets
      [create_multiset_from_labels ⟨[1, 2], [3, 4], rfl⟩,
       create_multiset_from_labels ⟨[1, 2], [1, 2], rfl⟩]
      [[1, 0], [0, 0]] [2, 2] [1, 2]).toOption.map (fun M => M.argmax)
      = some [3, 4, 1, 2] ∧
    (create_multiset_from_labels ⟨[2, 2], [1, 2, 3, 4], rfl⟩).argmax
      = [1, 2, 3, 4] ∧
    ([3, 4, 1, 2] : List Nat) ≠ [1, 2, 3, 4] := by
  decide

/-! ### Single-chunk merging -/

theorem ceilDiv_self {s : Nat} (hs : 0 < s) : ceilDiv s s = 1 := by
  rw [ceilDiv_eq_div_add_one hs hs, Nat.div_eq_of_lt (by omega)]

theorem blocksPerAxis_self {shape : List Nat} (hpos : ∀ s ∈ shape, 0 < s) :
    blocksPerAxis shape shape = List.replicate shape.length 1 := by
  induction shape with
  | nil => rfl
  | cons s sh ih =>
    show ceilDiv s s :: blocksPerAxis sh sh = _
    rw [ceilDiv_self (hpos s (List.mem_cons_self _ _)),
      ih (fun x hx => hpos x (List.mem_cons_of_mem _ hx))]
    rfl

theorem prodl_replicate_one (n : Nat) : prodl (List.replicate n 1) = 1 := by
  induction n with
  | zero => rfl
  | succ n ih => simp [List.replicate, prodl_cons, ih]

theorem inBox_replicate (n : Nat) :
    InBox (List.replicate n 1) (List.replicate n 0) := by
  induction n with
  | zero => exact List.Forall₂.nil
  | succ n ih => exact List.Forall₂.cons (by omega) ih

theorem blockBounds_self_zero (shape : List Nat) :
    blockBounds shape shape 0 = shape.map (fun s => (0, s)) := by
  unfold blockBounds
  rw [unravel_zero]
  have hlen : (blocksPerAxis shape shape).length = shape.length := by
    simp [blocksPerAxis, List.length_zipWith]
  rw [hlen]
  induction shape with
  | nil => rfl
  | cons s sh ih =>
    simp only [List.length_cons, List.replicate, List.zip_cons_cons, List.map_cons]
    rw [ih (by simp [blocksPerAxis, List.length_zipWith])]
    simp

theorem blockShape_self_zero (shape : List Nat) :
    blockShape shape shape 0 = shape := by
  unfold blockShape
  rw [blockBounds_self_zero, List.map_map]
  have h : ((fun bd : Nat × Nat => bd.2 - bd.1) ∘ fun s : Nat => (0, s))
      = fun s => s := by
    funext s
    simp
  rw [h, List.map_id']

theorem range_mul_flatten : ∀ (s P : Nat),
    (((List.range s).map (fun x => (List.range P).map (fun y => x * P + y))).flatten)
      = List.range (s * P) := by
  intro s P
  induction s with
  | zero => simp
  | succ s ih =>
    rw [List.range_succ, List.map_append, List.flatten_append, ih]
    simp only [List.map_cons, List.map_nil, List.flatten_cons, List.flatten_nil,
      List.append_nil]
    rw [Nat.succ_mul, List.range_add]

theorem boxCoords_full_ravel : ∀ (shape : List Nat),
    (boxCoords (shape.map (fun s => (0, s)))).map (ravel shape)
      = List.range (prodl shape) := by
  intro shape
  induction shape with
  | nil => rfl
  | cons s sh ih =>
    simp only [List.map_cons, boxCoords]
    rw [List.map_flatten, List.map_map, List.map_map]
    have hptwise : ∀ x ∈ List.range (s - 0),
        ((List.map (ravel (s :: sh)) ∘ fun x => (boxCoords (sh.map (fun t => (0, t)))).map
          (fun c => x :: c)) ∘ (0 + ·)) x
          = (List.range (prodl sh)).map (fun y => x * prodl sh + y) := by
      intro x _
      simp only [Function.comp_apply, List.map_map]
      rw [← ih, List.map_map]
      apply List.map_congr_left
      intro c _
      simp [ravel]
    rw [List.map_congr_left hptwise]
    have h4 : s - 0 = s := rfl
    rw [h4, range_mul_flatten, prodl_cons]

theorem writeAll_zip_range {vals : List Nat} {n : Nat} (hlen : vals.length = n) :
    writeAll (List.replicate n 0) ((List.range n).zip vals) = vals := by
  subst hlen
  apply List.ext_getElem
  · rw [writeAll_length, List.length_replicate]
  · intro i h1 h2
    have h1' : i < vals.length := by
      rwa [writeAll_length, List.length_replicate] at h1
    have hzlen : i < ((List.range vals.length).zip vals).length := by
      rw [List.length_zip, List.length_range]
      omega
    have hmem : (i, vals[i]) ∈ (List.range vals.length).zip vals := by
      rw [List.mem_iff_getElem]
      refine ⟨i, hzlen, ?_⟩
      rw [List.getElem_zip]
      congr 1
      exact List.getElem_range _ _
    have hcong : ∀ q ∈ (List.range vals.length).zip vals, q.1 = i → q.2 = vals[i] := by
      intro q hq hq1
      rw [List.mem_iff_getElem] at hq
      rcases hq with ⟨j, hj, hget⟩
      rw [List.getElem_zip] at hget
      rw [← hget] at hq1 ⊢
      simp only [List.getElem_range] at hq1
      subst hq1
      rfl
    have := getD_writeAll_mem _ (List.replicate vals.length 0) hmem hcong
      (by rw [List.length_replicate]; exact h1')
    rwa [List.getD_eq_getElem _ _ h1] at this

/-- C10 counterexample to the claim as stated: a degenerate but valid Multiset
with a zero-extent axis; the single-chunk merge raises instead of returning
the multiset. -/
theorem merge_single_counterexample :
    ValidMultiset (⟨[], [], [], [0]⟩ : LabelMultiset) ∧
    merge_multisets [(⟨[], [], [], [0]⟩ : LabelMultiset)]
      [[0]] [0] [0] = Except.error "Invalid grid" :=
  ⟨by decide, by rfl⟩

/-- C10 (amended): for every valid Multiset whose axes are all positive,
merging the single-element collection at grid position (0,...,0) with target
shape and chunk shape equal to the multiset's shape returns a multiset with
identical per-voxel argmax and offsets arrays. -/
theorem merge_single_identity (m : LabelMultiset) (hv : ValidMultiset m)
    (hpos : ∀ s ∈ m.shape, 0 < s) :
    ∃ M, merge_multisets [m] [List.replicate m.shape.length 0] m.shape m.shape
        = Except.ok M ∧ M.argmax = m.argmax ∧ M.offsets = m.offsets := by
  have hbpa := blocksPerAxis_self hpos
  have hok : _compute_multiset_vector [m] [List.replicate m.shape.length 0]
      m.shape m.shape = Except.ok [m] := by
    unfold _compute_multiset_vector
    rw [hbpa, prodl_replicate_one]
    rw [if_neg (by simp)]
    rw [if_neg ?hbounds]
    case hbounds =>
      intro hcontra
      rcases List.any_eq_true.mp hcontra with ⟨gp, hgp, hbad⟩
      rcases List.mem_singleton.mp hgp with rfl
      rw [inBoundsB_iff.mpr (inBox_replicate m.shape.length)] at hbad
      simp at hbad
    rw [if_neg ?hrange]
    case hrange =>
      intro hcontra
      rcases List.any_eq_true.mp hcontra with ⟨p, hp, hbad⟩
      simp only [List.map_cons, List.map_nil] at hp
      rcases List.mem_singleton.mp hp with rfl
      rw [ravel_replicate_zero] at hbad
      simp at hbad
    rw [if_neg ?hshape]
    case hshape =>
      intro hcontra
      rcases List.any_eq_true.mp hcontra with ⟨p, hp, hbad⟩
      simp only [List.map_cons, List.map_nil] at hp
      rcases List.mem_singleton.mp hp with rfl
      rw [ravel_replicate_zero] at hbad
      have : blockShape m.shape m.shape 0 = m.shape := blockShape_self_zero m.shape
      rw [this] at hbad
      exact (of_decide_eq_true hbad) rfl
    rw [if_neg ?hfill]
    case hfill =>
      intro hcontra
      rcases List.any_eq_true.mp hcontra with ⟨i, hi, hbad⟩
      simp only [List.length_cons, List.length_nil] at hi
      have hi0 : i = 0 := by
        have := List.mem_range.mp hi
        omega
      subst hi0
      simp only [List.map_cons, List.map_nil, ravel_replicate_zero] at hbad
      simp [List.contains] at hbad
  have hind : blockIndices m.shape m.shape 0 = List.range (prodl m.shape) := by
    unfold blockIndices
    rw [blockBounds_self_zero, boxCoords_full_ravel]
  refine ⟨_, merge_ok_unfold [m] _ m.shape m.shape m [] hok, ?_, ?_⟩
  · show (writeAll (List.replicate (prodl m.shape) 0)
      ((blockIndices m.shape m.shape 0).zip m.argmax)) = m.argmax
    rw [hind, ← hv.1, writeAll_zip_range rfl]
  · show (writeAll (List.replicate (prodl m.shape) 0)
      ((blockIndices m.shape m.shape 0).zip m.offsets)) = m.offsets
    rw [hind, ← hv.2.1, writeAll_zip_range rfl]

/-- Witness for C10 at a concrete input. -/
theorem merge_single_identity_witness :
    ∃ M, merge_multisets [create_multiset_from_labels ⟨[2, 2], [1, 2, 2, 3], rfl⟩]
        [List.replicate (create_multiset_from_labels ⟨[2, 2], [1, 2, 2, 3], rfl⟩).shape.length 0]
        (create_multiset_from_labels ⟨[2, 2], [1, 2, 2, 3], rfl⟩).shape
        (create_multiset_from_labels ⟨[2, 2], [1, 2, 2, 3], rfl⟩).shape = Except.ok M ∧
      M.argmax = (create_multiset_from_labels ⟨[2, 2], [1, 2, 2, 3], rfl⟩).argmax ∧
      M.offsets = (create_multiset_from_labels ⟨[2, 2], [1, 2, 2, 3], rfl⟩).offsets :=
  merge_single_identity (create_multiset_from_labels ⟨[2, 2], [1, 2, 2, 3], rfl⟩)
    (by decide) (by decide)

/-! ### Invariants of merge outputs -/

/-- Inversion of a successful grid validation: the vector is the input list
and the validated facts hold. -/
theorem compute_vector_ok {msets : List LabelMultiset} {gps : List (List Nat)}
    {shape chunks : List Nat} {vec : List LabelMultiset}
    (h : _compute_multiset_vector msets gps shape chunks = Except.ok vec) :
    vec = msets ∧ prodl (blocksPerAxis shape chunks) = msets.length ∧
    (∀ p ∈ gps.map (ravel (blocksPerAxis shape chunks)),
      (msets.getD p default).shape = blockShape shape chunks p) ∧
    (∀ i, i < msets.length → i ∈ gps.map (ravel (blocksPerAxis shape chunks))) := by
  unfold _compute_multiset_vector at h
  by_cases h1 : prodl (blocksPerAxis shape chunks) ≠ msets.length
  · rw [if_pos h1] at h
    cases h
  · rw [if_neg h1] at h
    by_cases h2 : (gps.any fun gp => !inBoundsB gp (blocksPerAxis shape chunks)) = true
    · rw [if_pos h2] at h
      cases h
    · rw [if_neg h2] at h
      by_cases h3 : ((gps.map (ravel (blocksPerAxis shape chunks))).any
          fun p => decide (msets.length ≤ p)) = true
      · rw [if_pos h3] at h
        cases h
      · rw [if_neg h3] at h
        by_cases h4 : ((gps.map (ravel (blocksPerAxis shape chunks))).any
            fun p => decide ((msets.getD p default).shape ≠ blockShape shape chunks p)) = true
        · rw [if_pos h4] at h
          cases h
        · rw [if_neg h4] at h
          by_cases h5 : ((List.range msets.length).any
              fun i => !((gps.map (ravel (blocksPerAxis shape chunks))).contains i)) = true
          · rw [if_pos h5] at h
            cases h
          · rw [if_neg h5] at h
            cases h
            refine ⟨rfl, by omega, ?_, ?_⟩
            · intro p hp
              have h4' := List.any_eq_false.mp (Bool.not_eq_true _ ▸ h4) p hp
              simpa using h4'
            · intro i hi
              have h5' := List.any_eq_false.mp (Bool.not_eq_true _ ▸ h5) i
                (List.mem_range.mpr hi)
              have h5'' : (gps.map (ravel (blocksPerAxis shape chunks))).contains i
                  = true := by
                simpa using h5'
              exact List.elem_iff.mp h5''

/-- With a positive number of blocks over a shape of positive extents, the
first block is non-degenerate. -/
theorem blockShape_zero_pos : ∀ (shape chunks : List Nat),
    0 < prodl (blocksPerAxis shape chunks) → (∀ s ∈ shape, 0 < s) →
    0 < prodl (blockShape shape chunks 0) := by
  intro shape
  induction shape with
  | nil =>
    intro chunks _ _
    cases chunks <;> exact Nat.one_pos
  | cons s sh ih =>
    intro chunks hbpa hspos
    cases chunks with
    | nil => exact Nat.one_pos
    | cons ch chs =>
      have hall := prodl_pos.mp hbpa
      have hcd : 0 < ceilDiv s ch := hall _ (List.mem_cons_self _ _)
      have hch : 0 < ch := pos_of_ceilDiv_pos hcd
      have htail : 0 < prodl (blocksPerAxis sh chs) := by
        rw [prodl_pos]
        intro x hx
        exact hall x (List.mem_cons_of_mem _ hx)
      have hs : 0 < s := hspos s (List.mem_cons_self _ _)
      have hshchs := ih chs htail (fun x hx => hspos x (List.mem_cons_of_mem _ hx))
      show 0 < prodl (((List.zip (unravel (ceilDiv s ch :: blocksPerAxis sh chs) 0)
        ((s, ch) :: List.zip sh chs)).map
        (fun p => (p.1 * p.2.2, min ((p.1 + 1) * p.2.2) p.2.1))).map
        (fun bd => bd.2 - bd.1))
      rw [unravel_zero]
      simp only [List.length_cons, List.replicate, List.zip_cons_cons, List.map_cons,
        prodl_cons]
      refine Nat.mul_pos (by simp; omega) ?_
      have htail2 : blockShape sh chs 0
          = ((List.zip (List.replicate (blocksPerAxis sh chs).length 0)
            (List.zip sh chs)).map
            (fun p => (p.1 * p.2.2, min ((p.1 + 1) * p.2.2) p.2.1))).map
            (fun bd => bd.2 - bd.1) := by
        unfold blockShape blockBounds
        rw [unravel_zero]
      rw [← htail2]
      exact hshchs

theorem foldl_writeAll_length {α : Type} (items : List α)
    (g : α → List (Nat × Nat)) (a : List Nat) :
    (items.foldl (fun acc it => writeAll acc (g it)) a).length = a.length := by
  rw [foldl_writeAll_flatten, writeAll_length]

/-- Invariant propagation through the offsets/table component of the merge
loop: offsets stay within the (growing) table, and the array length is
preserved. -/
theorem mergeSnd_inv (shape chunks : List Nat) :
    ∀ (items : List (Nat × LabelMultiset)) (b : List Nat) (t : List Hist),
    (∀ p ∈ items, ValidMultiset p.2) → (∀ o ∈ b, o < t.length) →
    (∀ o ∈ (items.foldl (fun (s : List Nat × List Hist) p =>
        (writeAll s.1 ((blockIndices shape chunks p.1).zip
          (p.2.offsets.map (fun o => (tableFold s.2 p.2.entries).2.getD o 0))),
         (tableFold s.2 p.2.entries).1)) (b, t)).1,
      o < ((items.foldl (fun (s : List Nat × List Hist) p =>
        (writeAll s.1 ((blockIndices shape chunks p.1).zip
          (p.2.offsets.map (fun o => (tableFold s.2 p.2.entries).2.getD o 0))),
         (tableFold s.2 p.2.entries).1)) (b, t)).2).length) ∧
    ((items.foldl (fun (s : List Nat × List Hist) p =>
        (writeAll s.1 ((blockIndices shape chunks p.1).zip
          (p.2.offsets.map (fun o => (tableFold s.2 p.2.entries).2.getD o 0))),
         (tableFold s.2 p.2.entries).1)) (b, t)).1).length = b.length := by
  intro items
  induction items with
  | nil =>
    intro b t _ hb
    exact ⟨hb, rfl⟩
  | cons p ps ih =>
    intro b t hval hb
    have hpvalid : ValidMultiset p.2 := hval p (List.mem_cons_self _ _)
    have hval' : ∀ q ∈ ps, ValidMultiset q.2 :=
      fun q hq => hval q (List.mem_cons_of_mem _ hq)
    have hglen : (tableFold t p.2.entries).2.length = p.2.entries.length :=
      tableFold_snd_length t p.2.entries
    have hb' : ∀ o ∈ writeAll b ((blockIndices shape chunks p.1).zip
        (p.2.offsets.map (fun o => (tableFold t p.2.entries).2.getD o 0))),
        o < (tableFold t p.2.entries).1.length := by
      intro o ho
      rcases mem_writeAll _ _ ho with hin | ⟨q, hq, hqx⟩
      · exact Nat.lt_of_lt_of_le (hb o hin) (tableFold_length_le t p.2.entries)
      · have hq2 := (List.of_mem_zip hq).2
        rcases List.mem_map.mp hq2 with ⟨o', ho', hmap⟩
        rw [← hqx, ← hmap]
        have ho'lt : o' < (tableFold t p.2.entries).2.length := by
          rw [hglen]
          exact hpvalid.2.2 o' ho'
        rw [List.getD_eq_getElem _ _ ho'lt]
        exact tableFold_idx_lt t p.2.entries _ (List.getElem_mem ho'lt)
    have hres := ih _ (tableFold t p.2.entries).1 hval' hb'
    simp only [List.foldl_cons]
    refine ⟨hres.1, ?_⟩
    rw [hres.2, writeAll_length]

theorem enumFrom_mem_snd {α : Type} {n : Nat} {l : List α} {p : Nat × α}
    (hp : p ∈ List.enumFrom n l) : p.2 ∈ l := by
  rw [List.mem_iff_getElem] at hp
  rcases hp with ⟨j, hj, hget⟩
  have hj' : j < l.length := by simpa [List.enumFrom_length] using hj
  rw [List.getElem_enumFrom] at hget
  rw [← hget]
  exact List.getElem_mem hj'

/-- C9: every multiset returned by `create_multiset_from_labels`, and every
multiset returned by `merge_multisets` from valid inputs, satisfies the
data-model invariants: per-voxel array lengths equal the voxel count of the
shape, and every offset indexes a valid entry. -/
theorem multiset_invariants :
    (∀ labels : LabelArray, ValidMultiset (create_multiset_from_labels labels)) ∧
    (∀ (msets : List LabelMultiset) (gps : List (List Nat)) (shape chunks : List Nat)
      (M : LabelMultiset), (∀ m ∈ msets, ValidMultiset m) →
      merge_multisets msets gps shape chunks = Except.ok M → ValidMultiset M) := by
  refine ⟨construct_valid, ?_⟩
  intro msets gps shape chunks M hvalid hmerge
  cases hc : _compute_multiset_vector msets gps shape chunks with
  | error e =>
    unfold merge_multisets at hmerge
    rw [hc] at hmerge
    cases hmerge
  | ok vec =>
    obtain ⟨hveq, hnb, hshapechk, hfill⟩ := compute_vector_ok hc
    subst hveq
    rcases vec with _ | ⟨ms0, rest⟩
    · unfold merge_multisets at hmerge
      rw [hc] at hmerge
      cases hmerge
    · have hM := merge_ok_unfold (ms0 :: rest) gps shape chunks ms0 rest hc
      rw [hM] at hmerge
      injection hmerge with hMeq
      subst hMeq
      have hms0 : ValidMultiset ms0 := hvalid ms0 (List.mem_cons_self _ _)
      have hitems : ∀ p ∈ List.enumFrom 1 rest, ValidMultiset p.2 :=
        fun p hp => hvalid p.2 (List.mem_cons_of_mem _ (enumFrom_mem_snd hp))
      have hb0 : ∀ o ∈ writeAll (List.replicate (prodl shape) 0)
          ((blockIndices shape chunks 0).zip ms0.offsets), o < ms0.entries.length := by
        intro o ho
        rcases mem_writeAll _ _ ho with hin | ⟨q, hq, hqx⟩
        · have ho0 : o = 0 := List.eq_of_mem_replicate hin
          have hsize : 0 < prodl shape := by
            rcases Nat.eq_zero_or_pos (prodl shape) with h0 | h0
            · rw [h0] at hin
              simp at hin
            · exact h0
          subst ho0
          have hspos := prodl_pos.mp hsize
          have hbpapos : 0 < prodl (blocksPerAxis shape chunks) := by
            rw [hnb]
            simp
          have h0pos : (0 : Nat) ∈ gps.map (ravel (blocksPerAxis shape chunks)) :=
            hfill 0 (by simp)
          have hshape0 : ms0.shape = blockShape shape chunks 0 := by
            have := hshapechk 0 h0pos
            simpa using this
          have hblk := blockShape_zero_pos shape chunks hbpapos hspos
          have hofflen : 0 < ms0.offsets.length := by
            rw [hms0.2.1, hshape0]
            exact hblk
          have hne : ms0.offsets ≠ [] := by
            intro hnil
            rw [hnil] at hofflen
            simp at hofflen
          rcases List.exists_mem_of_ne_nil _ hne with ⟨o', ho'⟩
          exact Nat.lt_of_le_of_lt (Nat.zero_le _) (hms0.2.2 o' ho')
        · have hq2 := (List.of_mem_zip hq).2
          rw [← hqx]
          exact hms0.2.2 _ hq2
      have hsnd := mergeSnd_inv shape chunks (List.enumFrom 1 rest)
        (writeAll (List.replicate (prodl shape) 0)
          ((blockIndices shape chunks 0).zip ms0.offsets))
        ms0.entries hitems hb0
      refine ⟨?_, ?_, ?_⟩
      · show ((List.enumFrom 1 rest).foldl (mergeStep shape chunks)
          (writeAll (List.replicate (prodl shape) 0)
            ((blockIndices shape chunks 0).zip ms0.argmax),
           writeAll (List.replicate (prodl shape) 0)
            ((blockIndices shape chunks 0).zip ms0.offsets),
           ms0.entries)).1.length = prodl shape
        rw [mergeLoop_fst, foldl_writeAll_length, writeAll_length, List.length_replicate]
      · show (((List.enumFrom 1 rest).foldl (mergeStep shape chunks)
          (writeAll (List.replicate (prodl shape) 0)
            ((blockIndices shape chunks 0).zip ms0.argmax),
           writeAll (List.replicate (prodl shape) 0)
            ((blockIndices shape chunks 0).zip ms0.offsets),
           ms0.entries)).2).1.length = prodl shape
        rw [mergeLoop_snd, hsnd.2, writeAll_length, List.length_replicate]
      · show ∀ o ∈ (((List.enumFrom 1 rest).foldl (mergeStep shape chunks)
          (writeAll (List.replicate (prodl shape) 0)
            ((blockIndices shape chunks 0).zip ms0.argmax),
           writeAll (List.replicate (prodl shape) 0)
            ((blockIndices shape chunks 0).zip ms0.offsets),
           ms0.entries)).2).1,
          o < (((List.enumFrom 1 rest).foldl (mergeStep shape chunks)
          (writeAll (List.replicate (prodl shape) 0)
            ((blockIndices shape chunks 0).zip ms0.argmax),
           writeAll (List.replicate (prodl shape) 0)
            ((blockIndices shape chunks 0).zip ms0.offsets),
           ms0.entries)).2).2.length
        rw [mergeLoop_snd]
        exact hsnd.1

/-- Witness for C9 at concrete inputs: a constructed multiset and a merged
multiset. -/
theorem multiset_invariants_witness :
    ValidMultiset (create_multiset_from_labels ⟨[2], [7, 5], rfl⟩) ∧
    ValidMultiset (⟨[7, 5], [1, 0], [[(5, 1)], [(7, 1)]], [2]⟩ : LabelMultiset) :=
  ⟨multiset_invariants.1 ⟨[2], [7, 5], rfl⟩,
   multiset_invariants.2 [create_multiset_from_labels ⟨[2], [7, 5], rfl⟩] [[0]] [2] [2]
     (⟨[7, 5], [1, 0], [[(5, 1)], [(7, 1)]], [2]⟩ : LabelMultiset)
     (by decide) (by rfl)⟩

end ElfLM
